import Mathlib

/-!
Verification development for the attribute/schema engine of the toolkit
(`vot/utilities/attributes.py`).  The Python classes are shallowly embedded:
nested configuration data becomes the inductive `Value`, field descriptors
become the inductive `Attr`, and the construction / dump engine of
`Attributee` becomes the functions `constructA` / `dumpLoop` below.
-/

namespace VotAttr

/-- Failure conditions of the engine.  `missingArguments` and
`unsupportedArguments` model the two aggregated `AttributeError` reports of
`Attributee.__init__`; `coercionFailure` models `AttributeException` raised
inside a `coerce`; `assertionError` models a failed Python `assert`;
`readonlyViolation` models the `AttributeException` of
`Attributee.__setattr__`; `attributeUnset` models the Python
`AttributeError` obtained by reading an instance attribute that has not
been assigned yet; `keyCollision` models the `TypeError` raised by
`dict(key=i, **context)` when `context` already binds `key`; `notFound`
models a failed `import_class` lookup; `dumpError` models the Python
`TypeError`/`AttributeError` raised when `dump` meets a value of the wrong
shape. -/
inductive Err where
  | missingArguments (names : List String)
  | unsupportedArguments (names : List String)
  | coercionFailure
  | assertionError
  | readonlyViolation (name : String)
  | attributeUnset (name : String)
  | keyCollision
  | notFound
  | dumpError
  | valueError
deriving Repr, DecidableEq

/-- One entry of the ambient context dictionary threaded through `coerce`
calls: the reference to the record under construction (`parent`), a numeric
position, or a string key. -/
inductive CtxEntry where
  | parentRef
  | idx (i : Nat)
  | name (s : String)
deriving Repr, DecidableEq

/-- A context is the dictionary passed as second argument to `coerce`. -/
def Ctx : Type := List (String × CtxEntry)

/-- The numeric conversion passed to `Number.__init__`: `int` or `float`. -/
inductive NumConv where
  | toIntC
  | toFloatC
deriving Repr, DecidableEq

mutual

/-- Nested configuration data (the only shapes the engine ever sees), plus
the two non-data values that occur in the Python code: `vundef` models the
`Undefined()` sentinel and `vinst` models a constructed `Attributee`
instance (carrying its class name, its `_declared_attributes`, and the
attribute values bound by `__init__`). -/
inductive Value where
  | vnull
  | vundef
  | vbool (b : Bool)
  | vint (n : Int)
  | vfloat (q : Rat)
  | vstr (s : String)
  | vlist (xs : List Value)
  | vmap (entries : List (String × Value))
  | vinst (cname : String) (schema : List (String × Attr)) (fields : List (String × Value))

/-- Field descriptors, one constructor per `Attribute` subclass of the
source.  Each carries the already-stored `_default` (`vundef` models the
`Undefined()` sentinel meaning that no default was given).  `numberA`
covers `Number`/`Integer`/`Float` via its `NumConv`; `nestedA` and
`includeA` carry the base class name and that class's
`_declared_attributes`; `objectA` carries, in place of the default
resolver's dynamic import, the registry of importable class names (the
spec's explicit-registry reading of `import_class`). -/
inductive Attr where
  | plainA (default : Value)
  | numberA (conv : NumConv) (minB maxB : Option Rat) (default : Value)
  | booleanA (default : Value)
  | stringA (default : Value)
  | listA (contains : Attr) (sep : String) (default : Value)
  | mapA (contains : Attr) (default : Value)
  | nestedA (cname : String) (schema : List (String × Attr)) (default : Value)
  | includeA (cname : String) (schema : List (String × Attr))
  | objectA (registry : List (String × List (String × Attr))) (default : Value)

end

mutual

/-- Size of a value, used as (part of) the termination measure of the
engine functions. -/
def valueSize : Value → Nat
  | .vnull => 1
  | .vundef => 1
  | .vbool _ => 1
  | .vint _ => 1
  | .vfloat _ => 1
  | .vstr _ => 1
  | .vlist xs => 1 + vlistSize xs
  | .vmap es => 1 + vfieldsSize es
  | .vinst _ s flds => 1 + 3 * schemaSize s + vfieldsSize flds

/-- Size of a list of values. -/
def vlistSize : List Value → Nat
  | [] => 0
  | x :: r => 1 + valueSize x + vlistSize r

/-- Size of an association list of values. -/
def vfieldsSize : List (String × Value) → Nat
  | [] => 0
  | (_, v) :: r => 1 + valueSize v + vfieldsSize r

/-- Size of a field descriptor (counts stored defaults as well). -/
def attrSize : Attr → Nat
  | .plainA d => 2 + valueSize d
  | .numberA _ _ _ d => 2 + valueSize d
  | .booleanA d => 2 + valueSize d
  | .stringA d => 2 + valueSize d
  | .listA e _ d => 2 + attrSize e + valueSize d
  | .mapA e d => 2 + attrSize e + valueSize d
  | .nestedA _ s d => 2 + 3 * schemaSize s + valueSize d
  | .includeA _ s => 2 + 3 * schemaSize s
  | .objectA reg d => 2 + 3 * registrySize reg + valueSize d

/-- Size of a schema (an ordered field list). -/
def schemaSize : List (String × Attr) → Nat
  | [] => 0
  | (_, f) :: r => 1 + attrSize f + schemaSize r

/-- Size of an object registry. -/
def registrySize : List (String × List (String × Attr)) → Nat
  | [] => 0
  | (_, s) :: r => 2 + 3 * schemaSize s + registrySize r

end

/-- Dictionary lookup on an ordered association list (first match). -/
def alookup {α : Type} : String → List (String × α) → Option α
  | _, [] => none
  | k, (k2, v) :: r => if k2 = k then some v else alookup k r

/-- The keys of an ordered association list, in order. -/
def akeys {α : Type} (l : List (String × α)) : List String :=
  l.map (fun p => p.1)

/-- `m[k] = v` on an ordered dictionary: replace in place if the key is
present (Python dicts keep the original position), append otherwise. -/
def dinsert {α : Type} (m : List (String × α)) (k : String) (v : α) :
    List (String × α) :=
  match alookup k m with
  | some _ => m.map (fun p => if p.1 = k then (k, v) else p)
  | none => m ++ [(k, v)]

/-- `m.update(adds)` on ordered dictionaries: left-to-right insertion. -/
def dupdate {α : Type} : List (String × α) → List (String × α) → List (String × α)
  | m, [] => m
  | m, (k, v) :: r => dupdate (dinsert m k v) r

/-- `s.difference_update(remove)` on a set of names kept as a list. -/
def ldiff (s remove : List String) : List String :=
  s.filter (fun k => !(remove.contains k))

/-- `is_undefined` of the source: true exactly on the `Undefined()`
sentinel (`None` is explicitly not undefined). -/
def isUndef : Value → Bool
  | .vundef => true
  | _ => false

/-- Parse a (signed) decimal integer from a list of characters. -/
def parseDigits : List Char → Option Nat
  | [] => none
  | [c] => if c.isDigit then some (c.toNat - 48) else none
  | c :: r =>
    match parseDigits r, (if c.isDigit then some (c.toNat - 48) else none) with
    | some acc, some d => some (d * 10 ^ r.length + acc)
    | _, _ => none

/-- Parse a signed decimal integer literal from a string. -/
def parseIntStr (s : String) : Option Int :=
  match s.data with
  | '-' :: r => (parseDigits r).map (fun n => -(n : Int))
  | l => (parseDigits l).map (fun n => (n : Int))

/-- Modelled from the spec: the value-conversion collaborator `to_number`
(`vot/utilities/__init__.py` is not part of the sources) — "numeric
parse-with-bounds": apply the integer/real conversion, then reject values
outside the inclusive `[min, max]` bounds, failing on non-numeric input or
out-of-range values. -/
def toNumber (conv : NumConv) (minB maxB : Option Rat) (v : Value) :
    Except Err Value := do
  let q : Rat ←
    match conv, v with
    | _, .vint n => Except.ok ((n : Rat))
    | .toIntC, .vfloat q => if q.den = 1 then Except.ok q else Except.error Err.coercionFailure
    | .toFloatC, .vfloat q => Except.ok q
    | _, .vstr s =>
      match parseIntStr s with
      | some n => Except.ok ((n : Rat))
      | none => Except.error Err.coercionFailure
    | _, _ => Except.error Err.coercionFailure
  if minB.elim false (fun m => decide (q < m)) then Except.error Err.coercionFailure
  else if maxB.elim false (fun m => decide (m < q)) then Except.error Err.coercionFailure
  else
    match conv with
    | .toIntC => Except.ok (Value.vint q.num)
    | .toFloatC => Except.ok (Value.vfloat q)

/-- Modelled from the spec: the value-conversion collaborator `to_logical`
— "boolean parse from canonical textual tokens": native booleans pass
through, a fixed set of truthy/falsy textual forms is recognized, anything
else fails. -/
def toLogical (v : Value) : Except Err Value :=
  match v with
  | .vbool b => Except.ok (Value.vbool b)
  | .vstr s =>
    if [("true"), ("True"), ("yes")].contains s then Except.ok (Value.vbool true)
    else if [("false"), ("False"), ("no")].contains s then Except.ok (Value.vbool false)
    else Except.error Err.coercionFailure
  | _ => Except.error Err.coercionFailure

/-- Modelled from the spec: the value-conversion collaborator `to_string`
— "string coercion of scalars": stringifies any scalar, fails on
non-scalar input. -/
def toStringV (v : Value) : Except Err Value :=
  match v with
  | .vstr s => Except.ok (Value.vstr s)
  | .vint n => Except.ok (Value.vstr (toString n))
  | .vfloat q => Except.ok (Value.vstr (toString q))
  | .vbool b => Except.ok (Value.vstr (if b then ("True") else ("False")))
  | _ => Except.error Err.coercionFailure

/-- The stored `_default` of a descriptor.  For `Include` this is the
overridden `default` property, which always returns `{}`. -/
def defaultOf : Attr → Value
  | .plainA d => d
  | .numberA _ _ _ d => d
  | .booleanA d => d
  | .stringA d => d
  | .listA _ _ d => d
  | .mapA _ d => d
  | .nestedA _ _ d => d
  | .includeA _ _ => Value.vmap []
  | .objectA _ d => d

/-- The underscore field `_default` exactly as `Attribute.__init__` stored
it: unlike the `default` property (`defaultOf`), an `Include` stores the
`Undefined()` sentinel, because `Include.__init__` passes no default to
`super().__init__` and only overrides the property. -/
def storedDefault : Attr → Value
  | .plainA d => d
  | .numberA _ _ _ d => d
  | .booleanA d => d
  | .stringA d => d
  | .listA _ _ d => d
  | .mapA _ d => d
  | .nestedA _ _ d => d
  | .includeA _ _ => Value.vundef
  | .objectA _ d => d

mutual

/-- The `required` property of a descriptor.  The base `Attribute` is
required iff its stored default is the `Undefined()` sentinel;
`Nested.required` additionally demands that the base class have at least
one required field (the `_required` flag computed in `Nested.__init__`);
`Include` inherits `Nested.required` and never stores a default. -/
def requiredA : Attr → Bool
  | .plainA d => isUndef d
  | .numberA _ _ _ d => isUndef d
  | .booleanA d => isUndef d
  | .stringA d => isUndef d
  | .listA _ _ d => isUndef d
  | .mapA _ d => isUndef d
  | .nestedA _ s d => isUndef d && anyRequired s
  | .includeA _ s => anyRequired s
  | .objectA _ d => isUndef d

/-- Whether any field of a schema is required (the loop in
`Nested.__init__`). -/
def anyRequired : List (String × Attr) → Bool
  | [] => false
  | (_, f) :: r => requiredA f || anyRequired r

end

/-- Whether a descriptor is an `Include` (the `isinstance(afield, Include)`
tests of the engine). -/
def isInclude : Attr → Bool
  | .includeA _ _ => true
  | _ => false

/-- The body of `Include.filter`: walk the target schema's fields in
order, recursing through nested `Include`s (merging their result into the
accumulated dictionary) and copying any field name that appears in the
supplied keyword mapping. -/
def filterGo (kwargs : List (String × Value)) :
    List (String × Value) → List (String × Attr) → List (String × Value)
  | acc, [] => acc
  | acc, (aname, f) :: rest =>
    match f with
    | .includeA _ sub => filterGo kwargs (dupdate acc (filterGo kwargs [] sub)) rest
    | _ =>
      match alookup aname kwargs with
      | some v => filterGo kwargs (dinsert acc aname v) rest
      | none => filterGo kwargs acc rest
termination_by _ attrs => schemaSize attrs
decreasing_by
  all_goals simp [schemaSize, attrSize]
  all_goals omega

/-- `Include.filter(**kwargs)` for a target schema. -/
def filterA (schema : List (String × Attr)) (kwargs : List (String × Value)) :
    List (String × Value) :=
  filterGo kwargs [] schema

/-- The effective (include-flattened) field list of a schema: `Include`
fields are replaced by their target schema's effective fields, every other
field stands for itself.  This is the set of names a construction call
actually understands. -/
def effFields : List (String × Attr) → List (String × Attr)
  | [] => []
  | (aname, f) :: rest =>
    match f with
    | .includeA _ sub => effFields sub ++ effFields rest
    | _ => (aname, f) :: effFields rest
termination_by attrs => schemaSize attrs
decreasing_by
  all_goals simp [schemaSize, attrSize]
  all_goals omega

/-- All field names of a schema, including the names of `Include` fields
themselves as well as the names inside their targets (recursively). -/
def allNames : List (String × Attr) → List String
  | [] => []
  | (aname, f) :: rest =>
    match f with
    | .includeA _ sub => aname :: (allNames sub ++ allNames rest)
    | _ => aname :: allNames rest
termination_by attrs => schemaSize attrs
decreasing_by
  all_goals simp [schemaSize, attrSize]
  all_goals omega

/-- The context passed by `Attributee.__init__` to every field coercion:
`{"parent": self}` (the record under construction, modelled opaquely —
no modelled coercion reads it). -/
def parentCtx : Ctx := [(("parent"), CtxEntry.parentRef)]

/-- `dict(key=i, **context)`: a fresh dictionary binding the reserved
context key first, followed by the entries of `context`; raises a
`TypeError` if `context` already binds it (duplicate keyword argument). -/
def ctxExtend (ctx : Ctx) (e : CtxEntry) : Except Err Ctx :=
  if (alookup ("key") ctx).isSome then Except.error Err.keyCollision
  else Except.ok ((("key"), e) :: ctx)

/-- If `sep` is a prefix of the character list, the remainder. -/
def dropSep : List Char → List Char → Option (List Char)
  | [], l => some l
  | _ :: _, [] => none
  | c :: cs, d :: ds => if c = d then dropSep cs ds else none

/-- Python `str.split` on a non-empty separator, over character lists.
The fuel argument (instantiated with the list's length) only makes the
recursion structural; it never runs out for a non-empty separator. -/
def splitAux (sep : List Char) : Nat → List Char → List (List Char)
  | _, [] => [[]]
  | 0, l => [l]
  | fuel + 1, c :: rest =>
    match dropSep sep (c :: rest) with
    | some tail => [] :: splitAux sep fuel tail
    | none =>
      match splitAux sep fuel rest with
      | [] => [[c]]
      | w :: ws => (c :: w) :: ws

/-- Python `value.split(separator)` for a non-empty separator: every
occurrence of the separator splits, adjacent occurrences yield empty
parts, and an empty string yields one empty part. -/
def splitStr (sep s : String) : List String :=
  (splitAux sep.data s.data.length s.data).map (fun cs => String.mk cs)

/-- The shape-dispatch prefix of `List.coerce`: a string is split on the
separator (Python raises `ValueError` on an empty separator), a mapping
contributes its values (keys discarded), a sequence
stands for itself, anything else is rejected with the
"Unable to value convert to list" `AttributeException`. -/
def listItems (sep : String) (v : Value) : Except Err (List Value) :=
  match v with
  | .vstr s =>
    if sep.data.isEmpty then Except.error Err.valueError
    else Except.ok ((splitStr sep s).map Value.vstr)
  | .vmap es => Except.ok (es.map (fun p => p.2))
  | .vlist xs => Except.ok xs
  | _ => Except.error Err.coercionFailure

mutual

/-- `coerce` of each descriptor kind, dispatching exactly as the source
classes do: `Attribute.coerce` is the identity, `Number.coerce` applies
`to_number`, `Boolean.coerce` applies `to_logical`, `String.coerce`
applies `to_string`, `List.coerce` and `Map.coerce` recurse element-wise
with an extended context, `Nested.coerce` (also inherited by `Include`)
passes `None`/`Undefined` through, asserts a mapping and constructs the
base class, and `Object.coerce` asserts a dict and hands the
discriminator, the context and the remaining entries to the resolver. -/
def coerceA (a : Attr) (v : Value) (ctx : Ctx) : Except Err Value :=
  match a with
  | .plainA _ => Except.ok v
  | .numberA conv mn mx _ => toNumber conv mn mx v
  | .booleanA _ => toLogical v
  | .stringA _ => toStringV v
  | .listA elem sep _ => do
    let items ← listItems sep v
    let ys ← coerceItems elem ctx 0 items
    Except.ok (Value.vlist ys)
  | .mapA elem _ =>
    match v with
    | .vmap es => do
      let rs ← coerceMapItems elem ctx es
      Except.ok (Value.vmap rs)
    | _ => Except.error Err.coercionFailure
  | .nestedA c s _ =>
    match v with
    | .vnull => Except.ok Value.vnull
    | .vundef => Except.ok Value.vundef
    | .vmap es => constructA c s es
    | _ => Except.error Err.assertionError
  | .includeA c s =>
    match v with
    | .vnull => Except.ok Value.vnull
    | .vundef => Except.ok Value.vundef
    | .vmap es => constructA c s es
    | _ => Except.error Err.assertionError
  | .objectA reg _ =>
    match v with
    | .vmap es =>
      resolveRegistry reg (alookup ("type") es)
        (es.filter (fun p => !(p.1 == ("type"))))
    | _ => Except.error Err.assertionError
termination_by (attrSize a, 0)
decreasing_by
  all_goals decreasing_with
    ((try simp [attrSize, schemaSize, registrySize, valueSize, vlistSize, vfieldsSize]);
      all_goals omega)


/-- The element loop of `List.coerce`: each item is coerced with the
context augmented by its zero-based position under the reserved context
key. -/
def coerceItems (elem : Attr) (ctx : Ctx) (i : Nat) :
    List Value → Except Err (List Value)
  | [] => Except.ok []
  | x :: xs => do
    let c ← ctxExtend ctx (CtxEntry.idx i)
    let y ← coerceA elem x c
    let ys ← coerceItems elem ctx (i + 1) xs
    Except.ok (y :: ys)
termination_by xs => (attrSize elem, xs.length + 1)
decreasing_by
  all_goals decreasing_with
    ((try simp [attrSize, schemaSize, registrySize, valueSize, vlistSize, vfieldsSize]);
      all_goals omega)


/-- The entry loop of `Map.coerce`: each value is coerced with the context
augmented by its key. -/
def coerceMapItems (elem : Attr) (ctx : Ctx) :
    List (String × Value) → Except Err (List (String × Value))
  | [] => Except.ok []
  | (k, x) :: es => do
    let c ← ctxExtend ctx (CtxEntry.name k)
    let y ← coerceA elem x c
    let ys ← coerceMapItems elem ctx es
    Except.ok ((k, y) :: ys)
termination_by es => (attrSize elem, es.length + 1)
decreasing_by
  all_goals decreasing_with
    ((try simp [attrSize, schemaSize, registrySize, valueSize, vlistSize, vfieldsSize]);
      all_goals omega)


/-- Modelled from the spec: `default_object_resolver` composed with the
collaborator `import_class` (not part of the sources) — the discriminator
name is looked up in the registry of importable schema types (a `NotFound`
condition if the name is absent or not a string) and the found type is
constructed from the remaining entries. -/
def resolveRegistry :
    List (String × List (String × Attr)) → Option Value →
    List (String × Value) → Except Err Value
  | [], _, _ => Except.error Err.notFound
  | (t, s) :: rest, cn, args =>
    match cn with
    | some (.vstr n) =>
      if t = n then constructA n s args else resolveRegistry rest cn args
    | _ => Except.error Err.notFound
termination_by reg _ _ => (registrySize reg, 0)
decreasing_by
  all_goals decreasing_with
    ((try simp [attrSize, schemaSize, registrySize, valueSize, vlistSize, vfieldsSize]);
      all_goals omega)


/-- `Attributee.__init__`: run the field loop, then fail with the
aggregated `Missing arguments` report if any declared field is still
unsatisfied, then fail with the aggregated `Unsupported arguments` report
if any supplied key is still unclaimed, and otherwise produce the
constructed record. -/
def constructA (c : String) (s : List (String × Attr))
    (kwargs : List (String × Value)) : Except Err Value := do
  let r ← constructLoop s kwargs [] (akeys kwargs) (akeys s)
  match r with
  | (fields, unconsumed, unspecified) =>
    if unspecified.isEmpty then
      if unconsumed.isEmpty then Except.ok (Value.vinst c s fields)
      else Except.error (Err.unsupportedArguments unconsumed)
    else Except.error (Err.missingArguments unspecified)
termination_by (3 * schemaSize s + 1, 0)
decreasing_by
  all_goals decreasing_with
    ((try simp [attrSize, schemaSize, registrySize, valueSize, vlistSize, vfieldsSize]);
      all_goals omega)


/-- The field loop of `Attributee.__init__`, threading the bound fields
and the `unconsumed` / `unspecified` name sets.  An `Include` field
filters the keyword set, coerces the filtered sub-mapping, and marks the
filtered keys (plus its own name) claimed and satisfied; any other field
coerces the supplied value, or its default when absent and not required,
and marks its own name; a required absent field is skipped
(left unsatisfied). -/
def constructLoop :
    List (String × Attr) → List (String × Value) → List (String × Value) →
    List String → List String →
    Except Err (List (String × Value) × List String × List String)
  | [], _, fields, unconsumed, unspecified =>
    Except.ok (fields, unconsumed, unspecified)
  | (aname, f) :: rest, kwargs, fields, unconsumed, unspecified =>
    match f with
    | .includeA c sub => do
      let iargs := filterA sub kwargs
      let v ← coerceA (.includeA c sub) (.vmap iargs) parentCtx
      constructLoop rest kwargs (dinsert fields aname v)
        (ldiff (ldiff unconsumed (akeys iargs)) [aname])
        (ldiff (ldiff unspecified (akeys iargs)) [aname])
    | g =>
      match alookup aname kwargs with
      | none =>
        if requiredA g then
          constructLoop rest kwargs fields unconsumed unspecified
        else do
          let v ← coerceA g (defaultOf g) parentCtx
          constructLoop rest kwargs (dinsert fields aname v)
            (ldiff unconsumed [aname]) (ldiff unspecified [aname])
      | some raw => do
        let v ← coerceA g raw parentCtx
        constructLoop rest kwargs (dinsert fields aname v)
          (ldiff unconsumed [aname]) (ldiff unspecified [aname])
termination_by attrs _ _ _ _ => (3 * schemaSize attrs, 1)
decreasing_by
  all_goals decreasing_with
    ((try simp [attrSize, schemaSize, registrySize, valueSize, vlistSize, vfieldsSize]);
      all_goals omega)


end

/-- A value found by dictionary lookup is no larger than the dictionary. -/
theorem alookup_size_le {k : String} :
    ∀ {fields : List (String × Value)} {v : Value},
      alookup k fields = some v → valueSize v ≤ vfieldsSize fields := by
  intro fields
  induction fields with
  | nil => intro v h; simp [alookup] at h
  | cons p r ih =>
    intro v h
    match p with
    | (k2, x) =>
      by_cases hk : k2 = k
      · simp [alookup, hk] at h
        subst h
        simp [vfieldsSize]
        omega
      · simp [alookup, hk] at h
        have := ih h
        simp [vfieldsSize]
        omega

/-- A stored default is no larger than its descriptor. -/
theorem defaultOf_size_le (f : Attr) : valueSize (defaultOf f) ≤ attrSize f := by
  cases f <;> simp [defaultOf, attrSize, valueSize, vfieldsSize] <;> omega

/-- Size bound for a dictionary lookup with a fallback value. -/
theorem getD_size_le (k : String) (fields : List (String × Value)) (d : Value) :
    valueSize ((alookup k fields).getD d) ≤ vfieldsSize fields + valueSize d := by
  cases h : alookup k fields with
  | none =>
    simp only [Option.getD_none]
    omega
  | some v =>
    have := alookup_size_le h
    simp only [Option.getD_some]
    omega

mutual

/-- `dump` of each descriptor kind: the base classes return the value
unchanged, `List.dump` and `Map.dump` map the element dump over the
stored container, `Nested.dump` (also inherited by `Include`) passes
`None` through and otherwise calls the stored instance's own `dump`, and
`Object.dump` calls the instance's `dump` and then stores the instance's
registered type name under the reserved key.  A stored value whose shape
the Python code would crash on (e.g. iterating a non-sequence, or calling
`.dump()` on the `Undefined` sentinel) is mapped to `dumpError`. -/
def dumpA (a : Attr) (v : Value) : Except Err Value :=
  match a with
  | .plainA _ => Except.ok v
  | .numberA _ _ _ _ => Except.ok v
  | .booleanA _ => Except.ok v
  | .stringA _ => Except.ok v
  | .listA elem _ _ =>
    match v with
    | .vlist xs => do
      let ys ← dumpItems elem xs
      Except.ok (Value.vlist ys)
    | _ => Except.error Err.dumpError
  | .mapA elem _ =>
    match v with
    | .vmap es => do
      let rs ← dumpMapItems elem es
      Except.ok (Value.vmap rs)
    | _ => Except.error Err.dumpError
  | .nestedA _ _ _ =>
    match v with
    | .vnull => Except.ok Value.vnull
    | .vinst _ s2 flds => do
      let es ← dumpLoop s2 flds []
      Except.ok (Value.vmap es)
    | _ => Except.error Err.dumpError
  | .includeA _ _ =>
    match v with
    | .vnull => Except.ok Value.vnull
    | .vinst _ s2 flds => do
      let es ← dumpLoop s2 flds []
      Except.ok (Value.vmap es)
    | _ => Except.error Err.dumpError
  | .objectA _ _ =>
    match v with
    | .vinst c2 s2 flds => do
      let es ← dumpLoop s2 flds []
      Except.ok (Value.vmap (dinsert es ("type") (Value.vstr c2)))
    | _ => Except.error Err.dumpError
termination_by (attrSize a + valueSize v, 0)
decreasing_by
  all_goals decreasing_with
    ((try simp [attrSize, schemaSize, registrySize, valueSize, vlistSize, vfieldsSize]);
      all_goals omega)

/-- The element loop of `List.dump`. -/
def dumpItems (elem : Attr) : List Value → Except Err (List Value)
  | [] => Except.ok []
  | x :: xs => do
    let y ← dumpA elem x
    let ys ← dumpItems elem xs
    Except.ok (y :: ys)
termination_by xs => (attrSize elem + vlistSize xs, 1)
decreasing_by
  all_goals decreasing_with
    ((try simp [attrSize, schemaSize, registrySize, valueSize, vlistSize, vfieldsSize]);
      all_goals omega)

/-- The entry loop of `Map.dump`. -/
def dumpMapItems (elem : Attr) :
    List (String × Value) → Except Err (List (String × Value))
  | [] => Except.ok []
  | (k, x) :: es => do
    let y ← dumpA elem x
    let ys ← dumpMapItems elem es
    Except.ok ((k, y) :: ys)
termination_by es => (attrSize elem + vfieldsSize es, 1)
decreasing_by
  all_goals decreasing_with
    ((try simp [attrSize, schemaSize, registrySize, valueSize, vlistSize, vfieldsSize]);
      all_goals omega)

/-- One field of `Attributee.dump`: dump the stored attribute value,
falling back to the descriptor's `default` property when the attribute
was never set (`getattr(self, aname, afield.default)`; for an `Include`
the fallback is the literal `{}` of the source, which is exactly
`Include.default`). -/
def dumpField (aname : String) (g : Attr) (fields : List (String × Value)) :
    Except Err Value :=
  dumpA g ((alookup aname fields).getD (defaultOf g))
termination_by (2 * attrSize g + vfieldsSize fields + 1, 0)
decreasing_by
  all_goals decreasing_with
    (have h1 := getD_size_le aname fields (defaultOf g)
     have h2 := defaultOf_size_le g
     omega)

/-- `Attributee.dump`: walk the declared fields in order; an `Include`
field dumps its stored sub-instance (falling back to `{}`, which is
exactly `Include.default`, when unset) and merges the resulting entries
into the serialized dictionary; any other field dumps the stored value
(falling back to the stored default when unset) and stores it under the
field name. -/
def dumpLoop :
    List (String × Attr) → List (String × Value) → List (String × Value) →
    Except Err (List (String × Value))
  | [], _, serialized => Except.ok serialized
  | (aname, f) :: rest, fields, serialized =>
    match f with
    | .includeA c sub => do
      let d ← dumpField aname (.includeA c sub) fields
      match d with
      | .vmap es => dumpLoop rest fields (dupdate serialized es)
      | _ => Except.error Err.dumpError
    | g => do
      let d ← dumpField aname g fields
      dumpLoop rest fields (dinsert serialized aname d)
termination_by attrs fields _ => (3 * schemaSize attrs + vfieldsSize fields, 1)
decreasing_by
  all_goals decreasing_with
    ((try simp [attrSize, schemaSize, registrySize, valueSize, vlistSize, vfieldsSize]);
      all_goals omega)

end

/-- `Attributee.__setattr__`: assignment to a declared field name raises
the readonly `AttributeException` (so the instance dictionary is left
unchanged); assignment to any other name falls through to ordinary
attribute assignment on the instance dictionary. -/
def attributeeSetattr (schema : List (String × Attr))
    (fields : List (String × Value)) (key : String) (v : Value) :
    Except Err (List (String × Value)) :=
  if (alookup key schema).isSome then Except.error (Err.readonlyViolation key)
  else Except.ok (dinsert fields key v)

/-- `Object.coerce` with the resolver left abstract (over an arbitrary
result type, so that an instrumented resolver can record its
invocations): assert that the input is a dict, read the discriminator
under the reserved key (absent gives `None`), and hand the discriminator,
the context and all remaining entries to the resolver in one call. -/
def objectCoerceWith {ρ : Type}
    (resolver : Option Value → Ctx → List (String × Value) → ρ)
    (v : Value) (ctx : Ctx) : Except Err ρ :=
  match v with
  | .vmap es =>
    Except.ok (resolver (alookup ("type") es) ctx
      (es.filter (fun p => !(p.1 == ("type")))))
  | _ => Except.error Err.assertionError

/-- `List.coerce` as dispatched from `Attribute.__init__` while
`List.__init__` is still inside its `super().__init__(**kwargs)` call: at
that point neither `self._separator` nor `self._contains` has been
assigned, so a string input raises `AttributeError` at
`value.split(self._separator)`, and any non-empty iterable raises
`AttributeError` when the element comprehension reads `self._contains`
(an empty iterable never reads it and succeeds). -/
def listCoerceAtInit (v : Value) : Except Err Value :=
  match v with
  | .vstr _ => Except.error (Err.attributeUnset ("_separator"))
  | _ => do
    let items ←
      match v with
      | .vmap es => Except.ok (es.map (fun p => p.2))
      | .vlist xs => Except.ok xs
      | _ => Except.error Err.coercionFailure
    match items with
    | [] => Except.ok (Value.vlist [])
    | _ :: _ => Except.error (Err.attributeUnset ("_contains"))

/-- `List.__init__(contains, separator, default)` in source order:
`super().__init__(**kwargs)` runs first, and for a given default it
dispatches to `List.coerce` on the partially initialized descriptor
(see `listCoerceAtInit`); only afterwards are `_separator` and
`_contains` assigned. -/
def listInit (contains : Attr) (separator : String) (default : Value) :
    Except Err Attr :=
  if isUndef default then Except.ok (Attr.listA contains separator Value.vundef)
  else do
    let d ← listCoerceAtInit default
    Except.ok (Attr.listA contains separator d)

/-- `Map.coerce` as dispatched while `Map.__init__` is still inside
`super().__init__(**kwargs)`: a non-mapping raises the
`AttributeException` first, and any mapping (even empty) then raises
`AttributeError` at `container = self._container()` because `_container`
has not been assigned yet. -/
def mapCoerceAtInit (v : Value) : Except Err Value :=
  match v with
  | .vmap _ => Except.error (Err.attributeUnset ("_container"))
  | _ => Except.error Err.coercionFailure

/-- `Map.__init__(contains, container, default)` in source order:
`super().__init__(**kwargs)` runs before `_contains` and `_container`
are assigned. -/
def mapInit (contains : Attr) (default : Value) : Except Err Attr :=
  if isUndef default then Except.ok (Attr.mapA contains Value.vundef)
  else do
    let d ← mapCoerceAtInit default
    Except.ok (Attr.mapA contains d)

/-- `Object.coerce` as dispatched while `Object.__init__` is still inside
`super().__init__(**kwargs)`: a non-dict fails the assert, and any dict
then raises `AttributeError` at `self._resolver` because `_resolver` has
not been assigned yet. -/
def objectCoerceAtInit (v : Value) : Except Err Value :=
  match v with
  | .vmap _ => Except.error (Err.attributeUnset ("_resolver"))
  | _ => Except.error Err.assertionError

/-- `Object.__init__(resolver, default)` in source order:
`super().__init__(**kwargs)` runs before `_resolver` is assigned. -/
def objectInit (registry : List (String × List (String × Attr)))
    (default : Value) : Except Err Attr :=
  if isUndef default then Except.ok (Attr.objectA registry Value.vundef)
  else do
    let d ← objectCoerceAtInit default
    Except.ok (Attr.objectA registry d)

/-- `Number.__init__(conversion, val_min, val_max, default)`: the
conversion and bounds are assigned before `super().__init__(**kwargs)`
runs, so a given default is coerced (exactly once) through the fully
initialized `Number.coerce`. -/
def numberInit (conv : NumConv) (minB maxB : Option Rat) (default : Value) :
    Except Err Attr :=
  if isUndef default then Except.ok (Attr.numberA conv minB maxB Value.vundef)
  else do
    let d ← toNumber conv minB maxB default
    Except.ok (Attr.numberA conv minB maxB d)

/-- Python `dict(pairs)`: the first occurrence of a key fixes its
position, the last occurrence fixes its value. -/
def dictOf {α : Type} (l : List (String × α)) : List (String × α) :=
  dupdate [] l

/-- A single-inheritance chain of `Attributee` subclasses: `root` is
`Attributee` itself and `derive p own` is a class whose body declares the
(`_get_fields`-filtered) `Attribute`-valued entries `own`, in declaration
order, on top of parent `p`. -/
inductive AClass where
  | root
  | derive (parent : AClass) (own : List (String × Attr))

/-- Depth of an inheritance chain. -/
def aclassSize : AClass → Nat
  | .root => 1
  | .derive p _ => 1 + aclassSize p

mutual

/-- `_declared_attributes` as assigned by `AttributeeMeta.__new__`:
`dict(inherited_attributes + cls_attributes)` where the inherited part is
`_get_fields_by_mro`, the concatenation of every strict ancestor's
`_declared_attributes` in reversed-MRO (ancestor-to-descendant) order
(`Attributee` itself and `object` contribute nothing). -/
def declaredAttributes : AClass → List (String × Attr)
  | .root => []
  | .derive p own => dictOf (mroConcat p ++ own)
termination_by c => 2 * aclassSize c
decreasing_by
  all_goals decreasing_with ((try simp [aclassSize]); all_goals omega)

/-- Concatenation of `_declared_attributes` over the chain from the root
down to and including the given class — this is exactly
`_get_fields_by_mro` of any direct child of that class. -/
def mroConcat : AClass → List (String × Attr)
  | .root => []
  | .derive p own => mroConcat p ++ declaredAttributes (.derive p own)
termination_by c => 2 * aclassSize c + 1
decreasing_by
  all_goals decreasing_with ((try simp [aclassSize]); all_goals omega)

end

/-- The ancestry merge described by the spec: every ancestor field in
ancestor order, its descriptor replaced in place by a same-named
redeclaration, followed by the genuinely new fields in declaration
order. -/
def expectedMerge (base own : List (String × Attr)) :
    List (String × Attr) :=
  base.map (fun p => (p.1, (alookup p.1 own).getD p.2)) ++
    own.filter (fun p => !((akeys base).contains p.1))

/-- The round-trip image described by the spec: walking the declared
fields in order, an `Include` contributes the image of its target schema
on the filtered keyword set, merged flat; any other field contributes,
under its own name, the supplied raw value when one was supplied and
otherwise its explicitly materialized default (the stored default as
construction coerces it and dump then renders it). -/
def specExpected :
    List (String × Attr) → List (String × Value) →
    Except Err (List (String × Value))
  | [], _ => Except.ok []
  | (aname, f) :: rest, kwargs =>
    match f with
    | .includeA _ sub => do
      let es ← specExpected sub (filterA sub kwargs)
      let rs ← specExpected rest kwargs
      Except.ok (es ++ rs)
    | g =>
      match alookup aname kwargs with
      | some v => do
        let rs ← specExpected rest kwargs
        Except.ok ((aname, v) :: rs)
      | none =>
        if requiredA g then Except.error (Err.missingArguments [aname])
        else do
          let d ← coerceA g (defaultOf g) parentCtx
          let dd ← dumpA g d
          let rs ← specExpected rest kwargs
          Except.ok ((aname, dd) :: rs)
termination_by attrs _ => schemaSize attrs
decreasing_by
  all_goals decreasing_with
    ((try simp [attrSize, schemaSize]); all_goals omega)

/-- An `Integer()` descriptor with no default (a required integer field). -/
def intAttr : Attr := Attr.numberA NumConv.toIntC none none Value.vundef

/-- An `Integer(default=0)` descriptor. -/
def intZeroAttr : Attr := Attr.numberA NumConv.toIntC none none (Value.vint 0)

/-- A `List(Integer())` descriptor with the default separator. -/
def listIntAttr : Attr := Attr.listA intAttr (",") Value.vundef

/-- The spec's `Point` schema: `x: Integer(required), y: Integer(default=0)`. -/
def pointSchema : List (String × Attr) :=
  [(("x"), intAttr), (("y"), intZeroAttr)]

/-- The spec's polymorphism example: a schema type with one required
`Float` field `radius`. -/
def circleSchema : List (String × Attr) :=
  [(("radius"), Attr.numberA NumConv.toFloatC none none Value.vundef)]

/-- A registry mapping the discriminator name to the schema type. -/
def shapeRegistry : List (String × List (String × Attr)) :=
  [(("Circle"), circleSchema)]

/-- The spec's raw polymorphic input: a mapping with a discriminator entry
under the reserved key plus the subtype's constructor arguments. -/
def circleRaw : List (String × Value) :=
  [(("type"), Value.vstr ("Circle")), (("radius"), Value.vstr ("5"))]

/-- Whether a value has one of the three shapes `List.coerce` accepts: a
separator-delimited string, a sequence, or a mapping. -/
def isListShaped : Value → Bool
  | .vstr _ => true
  | .vlist _ => true
  | .vmap _ => true
  | _ => false

/-- The names the field loop of `Attributee.__init__` removes from both
the `unconsumed` and the `unspecified` set, per field in order: an
`Include` removes its filtered keys plus its own name, a supplied or
defaulted field removes its own name, a required absent field removes
nothing. -/
def removedNames : List (String × Attr) → List (String × Value) → List String
  | [], _ => []
  | (aname, f) :: rest, kwargs =>
    match f with
    | .includeA _ sub =>
      (akeys (filterA sub kwargs) ++ [aname]) ++ removedNames rest kwargs
    | g =>
      match alookup aname kwargs with
      | some _ => aname :: removedNames rest kwargs
      | none =>
        if requiredA g then removedNames rest kwargs
        else aname :: removedNames rest kwargs

/-- The declared fields that are required but absent from the raw keyword
mapping — what the claim calls the unsatisfied required fields — in
declaration order. -/
def missingNames (s : List (String × Attr)) (kwargs : List (String × Value)) :
    List String :=
  (s.filter (fun p => requiredA p.2 && (alookup p.1 kwargs).isNone)).map
    (fun p => p.1)

/-- The raw keys no declared field claims — what the claim calls the
unsupported keys — in raw-mapping order. -/
def extraNames (s : List (String × Attr)) (kwargs : List (String × Value)) :
    List String :=
  (akeys kwargs).filter (fun k => !((akeys s).contains k))

/-- The effective (include-flattened) field names of a schema, in order:
the keys of `effFields`. -/
def effNames : List (String × Attr) → List String
  | [] => []
  | (aname, f) :: rest =>
    match f with
    | .includeA _ sub => effNames sub ++ effNames rest
    | _ => aname :: effNames rest
termination_by attrs => schemaSize attrs
decreasing_by
  all_goals decreasing_with
    ((try simp [attrSize, schemaSize]); all_goals omega)

/-- What the loop of `Attributee.__init__` establishes per field, in
order, about the bound attribute entries: an `Include` stores the
coercion of its filtered keyword set, a supplied field stores the
coercion of the supplied value, an absent optional field stores the
coercion of its default, and a required absent field stores nothing. -/
def PerField :
    List (String × Attr) → List (String × Value) → List (String × Value) → Prop
  | [], _, entries => entries = []
  | (aname, f) :: rest, kwargs, entries =>
    match f with
    | .includeA c sub =>
      ∃ v tail,
        coerceA (.includeA c sub) (.vmap (filterA sub kwargs)) parentCtx =
          Except.ok v
        ∧ entries = (aname, v) :: tail ∧ PerField rest kwargs tail
    | g =>
      match alookup aname kwargs with
      | some raw =>
        ∃ v tail, coerceA g raw parentCtx = Except.ok v
          ∧ entries = (aname, v) :: tail ∧ PerField rest kwargs tail
      | none =>
        if requiredA g = true then PerField rest kwargs entries
        else ∃ v tail, coerceA g (defaultOf g) parentCtx = Except.ok v
          ∧ entries = (aname, v) :: tail ∧ PerField rest kwargs tail

/-- The input value the loop of `Attributee.__init__` hands a field's
`coerce`: the filtered keyword sub-mapping for an `Include`, the supplied
raw value when the field's name is present in the raw mapping, and the
`default` property otherwise. -/
def pfInput (g : Attr) (aname : String) (kwargs : List (String × Value)) : Value :=
  match g with
  | .includeA _ sub => Value.vmap (filterA sub kwargs)
  | _ =>
    match alookup aname kwargs with
    | some raw => raw
    | none => defaultOf g

/-- A successful lookup finds an entry of the dictionary. -/
theorem alookup_mem {α : Type} {k : String} {v : α} :
    ∀ {l : List (String × α)}, alookup k l = some v → (k, v) ∈ l := by
  intro l
  induction l with
  | nil => intro h; simp [alookup] at h
  | cons p r ih =>
    intro h
    obtain ⟨k2, w⟩ := p
    by_cases hk : k2 = k
    · subst hk
      simp [alookup] at h
      simp [h]
    · simp [alookup, hk] at h
      exact List.mem_cons_of_mem _ (ih h)

/-- A key is among the keys iff some entry carries it. -/
theorem mem_akeys_iff {α : Type} {x : String} {l : List (String × α)} :
    x ∈ akeys l ↔ ∃ v, (x, v) ∈ l := by
  simp only [akeys, List.mem_map]
  constructor
  · rintro ⟨p, hp, rfl⟩
    exact ⟨p.2, by simpa using hp⟩
  · rintro ⟨v, hv⟩
    exact ⟨(x, v), hv, rfl⟩

/-- Entries after a `dinsert` come from the dictionary or are the
inserted pair. -/
theorem mem_dinsert {α : Type} {p : String × α} {m : List (String × α)}
    {k : String} {v : α} (h : p ∈ dinsert m k v) : p ∈ m ∨ p = (k, v) := by
  unfold dinsert at h
  cases halo : alookup k m with
  | some w =>
    rw [halo] at h
    obtain ⟨q, hq, he⟩ := List.mem_map.1 h
    by_cases hqk : q.1 = k
    · simp [hqk] at he
      exact Or.inr he.symm
    · simp [hqk] at he
      exact Or.inl (he ▸ hq)
  | none =>
    rw [halo] at h
    rcases List.mem_append.1 h with h1 | h1
    · exact Or.inl h1
    · simp at h1
      exact Or.inr h1

/-- Entries after a `dict.update` come from either side. -/
theorem mem_dupdate {α : Type} {p : String × α} :
    ∀ {adds m : List (String × α)}, p ∈ dupdate m adds → p ∈ m ∨ p ∈ adds := by
  intro adds
  induction adds with
  | nil => intro m h; exact Or.inl h
  | cons q r ih =>
    intro m h
    obtain ⟨k, v⟩ := q
    rcases ih h with h1 | h1
    · rcases mem_dinsert h1 with h2 | h2
      · exact Or.inl h2
      · exact Or.inr (by simp [h2])
    · exact Or.inr (List.mem_cons_of_mem _ h1)

/-- A key is absent from a dictionary iff its lookup fails. -/
theorem alookup_none_iff {α : Type} {k : String} :
    ∀ {l : List (String × α)}, alookup k l = none ↔ k ∉ akeys l := by
  intro l
  induction l with
  | nil => simp [alookup, akeys]
  | cons p r ih =>
    obtain ⟨k2, v⟩ := p
    by_cases hk : k2 = k
    · subst hk
      simp [alookup, akeys]
    · have hne : k ≠ k2 := fun h => hk h.symm
      simp [alookup, hk, akeys, ih, hne]

/-- A key present in a dictionary looks up to something. -/
theorem alookup_isSome_of_mem {α : Type} {k : String} {l : List (String × α)}
    (h : k ∈ akeys l) : (alookup k l).isSome := by
  cases ha : alookup k l with
  | none => exact absurd h (alookup_none_iff.1 ha)
  | some v => rfl

/-- Inserting a fresh key appends the entry. -/
theorem dinsert_fresh {α : Type} {m : List (String × α)} {k : String} {v : α}
    (h : k ∉ akeys m) : dinsert m k v = m ++ [(k, v)] := by
  simp [dinsert, alookup_none_iff.2 h]

/-- Removing nothing from a name set changes nothing. -/
theorem ldiff_nil (s : List String) : ldiff s [] = s := by
  simp [ldiff]

/-- Two removals in sequence are one removal of the concatenation. -/
theorem ldiff_ldiff (s a b : List String) :
    ldiff (ldiff s a) b = ldiff s (a ++ b) := by
  simp only [ldiff, List.filter_filter]
  congr 1
  funext k
  by_cases ha : k ∈ a <;> by_cases hb : k ∈ b <;>
    simp [List.elem_iff, List.contains, ha, hb]

/-- Filtering away a key that is not in the dictionary changes nothing. -/
theorem filter_of_alookup_none {α : Type} {k : String} :
    ∀ {l : List (String × α)}, alookup k l = none →
      l.filter (fun p => !(p.1 == k)) = l := by
  intro l
  induction l with
  | nil => intro _; rfl
  | cons p r ih =>
    intro h
    match p with
    | (k2, v) =>
      by_cases hk : k2 = k
      · simp [alookup, hk] at h
      · have hbeq : (k2 == k) = false := by simp [hk]
        simp [alookup, hk] at h
        simp [List.filter, hbeq, ih h]

/-- `akeys` on a cons. -/
theorem akeys_cons {α : Type} (k : String) (v : α) (l : List (String × α)) :
    akeys ((k, v) :: l) = k :: akeys l := rfl

/-- An entry's key is among the keys. -/
theorem mem_akeys {α : Type} {p : String × α} {l : List (String × α)}
    (hp : p ∈ l) : p.1 ∈ akeys l :=
  List.mem_map_of_mem _ hp

/-- Replacing entries under an absent key is a no-op. -/
theorem map_replace_notmem {α : Type} {m : List (String × α)} {k : String}
    {v : α} (h : k ∉ akeys m) :
    m.map (fun p => if p.1 = k then (k, v) else p) = m := by
  induction m with
  | nil => rfl
  | cons q r ih =>
    simp only [akeys, List.map_cons, List.mem_cons] at h
    push_neg at h
    rw [List.map_cons, if_neg (fun e => h.1 e.symm),
      ih (by simpa [akeys] using h.2)]

/-- `dinsert` walks past an entry with a different key. -/
theorem dinsert_cons_ne {α : Type} {m : List (String × α)} {k k2 : String}
    {v w : α} (h : k2 ≠ k) :
    dinsert ((k2, w) :: m) k v = (k2, w) :: dinsert m k v := by
  simp only [dinsert, alookup, if_neg h]
  cases halo : alookup k m with
  | some _ => simp [if_neg h]
  | none => simp

/-- `dinsert` on an entry with the matching key replaces it in place (when
the key appears nowhere further along). -/
theorem dinsert_head {α : Type} {m : List (String × α)} {k : String}
    {v w : α} (h : k ∉ akeys m) :
    dinsert ((k, w) :: m) k v = (k, v) :: m := by
  simp only [dinsert, alookup, if_pos rfl]
  simp [map_replace_notmem h]

/-- The keys after a `dinsert`. -/
theorem akeys_dinsert {α : Type} (m : List (String × α)) (k : String) (v : α) :
    akeys (dinsert m k v) =
      if k ∈ akeys m then akeys m else akeys m ++ [k] := by
  by_cases h : k ∈ akeys m
  · have hs := alookup_isSome_of_mem (l := m) h
    cases halo : alookup k m with
    | none => rw [halo] at hs; cases hs
    | some w =>
      rw [if_pos h]
      simp only [dinsert, halo, akeys, List.map_map]
      apply List.map_congr_left
      intro p _
      by_cases hp : p.1 = k <;> simp [hp]
  · rw [if_neg h]
    simp [dinsert, alookup_none_iff.2 h, akeys]

/-- `dinsert` keeps the keys duplicate-free. -/
theorem nodup_akeys_dinsert {α : Type} {m : List (String × α)} {k : String}
    {v : α} (h : (akeys m).Nodup) : (akeys (dinsert m k v)).Nodup := by
  rw [akeys_dinsert]
  by_cases hk : k ∈ akeys m
  · simpa [hk] using h
  · simp [hk, List.nodup_append, h]

/-- `dict.update` over a concatenation updates in two stages. -/
theorem dupdate_append {α : Type} :
    ∀ (a b m : List (String × α)),
      dupdate m (a ++ b) = dupdate (dupdate m a) b := by
  intro a
  induction a with
  | nil => intro b m; rfl
  | cons q r ih =>
    intro b m
    obtain ⟨k, v⟩ := q
    simp only [List.cons_append, dupdate]
    exact ih b (dinsert m k v)

/-- `dict.update` keeps the keys duplicate-free. -/
theorem nodup_akeys_dupdate {α : Type} :
    ∀ (l m : List (String × α)), (akeys m).Nodup →
      (akeys (dupdate m l)).Nodup := by
  intro l
  induction l with
  | nil => intro m h; exact h
  | cons q r ih =>
    intro m h
    obtain ⟨k, v⟩ := q
    exact ih (dinsert m k v) (nodup_akeys_dinsert h)

/-- `dict.update` only ever appends new keys at the end. -/
theorem akeys_dupdate_ext {α : Type} :
    ∀ (l m : List (String × α)),
      ∃ extra, akeys (dupdate m l) = akeys m ++ extra := by
  intro l
  induction l with
  | nil => intro m; exact ⟨[], by simp [dupdate]⟩
  | cons q r ih =>
    intro m
    obtain ⟨k, v⟩ := q
    obtain ⟨extra, he⟩ := ih (dinsert m k v)
    rw [dupdate, he, akeys_dinsert]
    by_cases hk : k ∈ akeys m
    · exact ⟨extra, by simp [hk]⟩
    · exact ⟨k :: extra, by simp [hk]⟩

/-- `dict.update` from entries with fresh, duplicate-free keys appends
them all. -/
theorem dupdate_fresh {α : Type} :
    ∀ (l m : List (String × α)),
      (∀ x ∈ akeys l, x ∉ akeys m) → (akeys l).Nodup →
      dupdate m l = m ++ l := by
  intro l
  induction l with
  | nil => intro m _ _; simp [dupdate]
  | cons q r ih =>
    intro m hdis hnod
    obtain ⟨k, v⟩ := q
    rw [akeys_cons] at hdis hnod
    have hkm : k ∉ akeys m := hdis k (List.mem_cons_self _ _)
    rw [dupdate, dinsert_fresh hkm, ih (m ++ [(k, v)]) ?_ (List.nodup_cons.1 hnod).2]
    · simp
    · intro x hx
      simp only [akeys, List.map_append, List.mem_append]
      push_neg
      refine ⟨fun hxm => hdis x (List.mem_cons_of_mem _ hx) hxm, ?_⟩
      simp [akeys]
      exact fun e => absurd (e ▸ hx) (List.nodup_cons.1 hnod).1

/-- `dict(pairs)` of duplicate-free keyed pairs is the pairs themselves. -/
theorem dictOf_self {α : Type} :
    ∀ {l : List (String × α)}, (akeys l).Nodup → dupdate [] l = l := by
  intro l h
  have := dupdate_fresh l [] (by simp [akeys]) h
  simpa using this

/-- `dict.update` from a source whose keys all differ from the head entry
walks past the head. -/
theorem dupdate_cons_fresh {α : Type} :
    ∀ (l m : List (String × α)) (k : String) (v : α),
      (∀ x ∈ akeys l, x ≠ k) →
      dupdate ((k, v) :: m) l = (k, v) :: dupdate m l := by
  intro l
  induction l with
  | nil => intro m k v _; rfl
  | cons q r ih =>
    intro m k v h
    obtain ⟨k2, w⟩ := q
    have hne : k2 ≠ k := h k2 (by simp [akeys])
    simp only [dupdate]
    rw [dinsert_cons_ne hne.symm, ih (dinsert m k2 w) k v ?_]
    intro x hx
    exact h x (by simp [akeys] at hx ⊢; exact Or.inr hx)

/-- Updating a dictionary with a whole dictionary that extends its key
list reproduces the update source. -/
theorem dupdate_absorb {α : Type} :
    ∀ (m l : List (String × α)) (extra : List String),
      akeys l = akeys m ++ extra → (akeys l).Nodup →
      dupdate m l = l := by
  intro m
  induction m with
  | nil =>
    intro l extra _ hnod
    exact dictOf_self hnod
  | cons q m' ih =>
    intro l extra hkeys hnod
    obtain ⟨k, w⟩ := q
    cases l with
    | nil => simp [akeys_cons, akeys] at hkeys
    | cons q' l' =>
      obtain ⟨k', v⟩ := q'
      rw [akeys_cons, akeys_cons, List.cons_append] at hkeys
      injection hkeys with h1 h2
      subst h1
      have hnod2 : (k' :: akeys l').Nodup := hnod
      have hknotl' : k' ∉ akeys l' := (List.nodup_cons.1 hnod2).1
      have hknotm' : k' ∉ akeys m' :=
        fun hx => hknotl' (h2 ▸ List.mem_append_left _ hx)
      simp only [dupdate]
      rw [dinsert_head hknotm',
        dupdate_cons_fresh l' m' k' v (fun x hx e => hknotl' (e ▸ hx)),
        ih l' extra h2 (List.nodup_cons.1 hnod2).2]

/-- `_declared_attributes` always has duplicate-free keys (it is built by
`dict(...)`). -/
theorem declared_nodup : ∀ c : AClass, (akeys (declaredAttributes c)).Nodup := by
  intro c
  cases c with
  | root => simp [declaredAttributes, akeys]
  | derive p own =>
    have h : declaredAttributes (.derive p own) = dictOf (mroConcat p ++ own) := by
      simp [declaredAttributes]
    rw [h, dictOf]
    exact nodup_akeys_dupdate _ [] (by simp [akeys])

/-- `_declared_attributes` of a derived class is one dictionary update of
the parent's `_declared_attributes` with the newly declared fields. -/
theorem declared_derive_eq (p : AClass) (own : List (String × Attr))
    (ih : dupdate [] (mroConcat p) = declaredAttributes p) :
    declaredAttributes (.derive p own) =
      dupdate (declaredAttributes p) own := by
  have h : declaredAttributes (.derive p own) = dictOf (mroConcat p ++ own) := by
    simp [declaredAttributes]
  rw [h, dictOf, dupdate_append, ih]

/-- Taking the dict of the whole reversed-MRO concatenation gives back
`_declared_attributes`: the ancestors' entries are all re-stated by the
most derived `_declared_attributes` in compatible order. -/
theorem mroConcat_dict :
    ∀ c : AClass, dupdate [] (mroConcat c) = declaredAttributes c := by
  intro c
  induction c with
  | root => simp [mroConcat, declaredAttributes, dupdate]
  | derive p own ih =>
    have hm : mroConcat (.derive p own) =
        mroConcat p ++ declaredAttributes (.derive p own) := by
      simp [mroConcat]
    rw [hm, dupdate_append, ih]
    have hD := declared_derive_eq p own ih
    obtain ⟨extra, hext⟩ := akeys_dupdate_ext own (declaredAttributes p)
    exact dupdate_absorb _ _ extra (by rw [hD, hext])
      (by rw [hD]; exact nodup_akeys_dupdate own _ (declared_nodup p))

/-- A dictionary update is the spec's override merge: base entries in
base order with redeclared values replacing in place, then the genuinely
new entries in declaration order. -/
theorem dupdate_expectedMerge :
    ∀ (own m : List (String × Attr)), (akeys m).Nodup → (akeys own).Nodup →
      dupdate m own = expectedMerge m own := by
  intro own
  induction own with
  | nil =>
    intro m _ _
    simp [dupdate, expectedMerge, alookup]
  | cons q rest ih =>
    intro m hm hown
    obtain ⟨k, v⟩ := q
    rw [akeys_cons] at hown
    have hkrest : k ∉ akeys rest := (List.nodup_cons.1 hown).1
    have hrest : (akeys rest).Nodup := (List.nodup_cons.1 hown).2
    simp only [dupdate]
    rw [ih (dinsert m k v) (nodup_akeys_dinsert hm) hrest]
    by_cases hk : k ∈ akeys m
    · have hs := alookup_isSome_of_mem (l := m) hk
      cases halo : alookup k m with
      | none => rw [halo] at hs; cases hs
      | some w =>
        simp only [dinsert, halo, expectedMerge]
        have hkeys : akeys (m.map (fun p => if p.1 = k then (k, v) else p)) =
            akeys m := by
          simp only [akeys, List.map_map]
          apply List.map_congr_left
          intro p _
          by_cases hpk : p.1 = k <;> simp [Function.comp, hpk]
        congr 1
        · rw [List.map_map]
          apply List.map_congr_left
          intro p hp
          by_cases hpk : p.1 = k
          · simp [Function.comp, hpk, alookup, alookup_none_iff.2 hkrest]
          · have hkp : ¬ k = p.1 := fun h => hpk h.symm
            simp [Function.comp, hpk, alookup, hkp]
        · rw [hkeys, List.filter_cons]
          simp [hk]
    · rw [dinsert_fresh hk]
      simp only [expectedMerge]
      rw [List.map_append, List.filter_cons]
      have hknotc : ((akeys m).contains k) = false := by
        simpa [List.elem_iff] using hk
      have hmapeq : m.map (fun p => (p.1, (alookup p.1 rest).getD p.2)) =
          m.map (fun p => (p.1, (alookup p.1 ((k, v) :: rest)).getD p.2)) := by
        apply List.map_congr_left
        intro p hp
        have hpk : p.1 ≠ k := fun e => hk (e ▸ mem_akeys hp)
        have hkp : ¬ k = p.1 := fun h => hpk h.symm
        simp [alookup, hkp]
      have hfeq : rest.filter
            (fun p => !((akeys (m ++ [(k, v)])).contains p.1)) =
          rest.filter (fun p => !((akeys m).contains p.1)) := by
        apply List.filter_congr
        intro p hp
        have hpk : p.1 ≠ k := fun e => hkrest (e ▸ mem_akeys hp)
        simp [akeys, List.elem_iff, hpk]
      rw [hfeq, hmapeq]
      simp [hknotc, hk, alookup_none_iff.2 hkrest]

/-- Every descriptor has positive size. -/
theorem attrSize_pos (f : Attr) : 1 ≤ attrSize f := by
  cases f <;> simp [attrSize] <;> omega

/-- `effFields` at an `Include` field. -/
theorem effFields_cons_include {aname c : String} {sub rest : List (String × Attr)} :
    effFields ((aname, Attr.includeA c sub) :: rest) =
      effFields sub ++ effFields rest := by
  simp [effFields]

/-- `effFields` at a non-`Include` field. -/
theorem effFields_cons_notinclude {aname : String} {f : Attr}
    {rest : List (String × Attr)} (hfr : isInclude f = false) :
    effFields ((aname, f) :: rest) = (aname, f) :: effFields rest := by
  cases f <;> simp_all [effFields, isInclude]

/-- `effNames` at an `Include` field. -/
theorem effNames_cons_include {aname c : String} {sub rest : List (String × Attr)} :
    effNames ((aname, Attr.includeA c sub) :: rest) =
      effNames sub ++ effNames rest := by
  simp [effNames]

/-- `effNames` at a non-`Include` field. -/
theorem effNames_cons_notinclude {aname : String} {f : Attr}
    {rest : List (String × Attr)} (hfr : isInclude f = false) :
    effNames ((aname, f) :: rest) = aname :: effNames rest := by
  cases f <;> simp_all [effNames, isInclude]

/-- `allNames` at an `Include` field. -/
theorem allNames_cons_include {aname c : String} {sub rest : List (String × Attr)} :
    allNames ((aname, Attr.includeA c sub) :: rest) =
      aname :: (allNames sub ++ allNames rest) := by
  simp [allNames]

/-- `allNames` at a non-`Include` field. -/
theorem allNames_cons_notinclude {aname : String} {f : Attr}
    {rest : List (String × Attr)} (hfr : isInclude f = false) :
    allNames ((aname, f) :: rest) = aname :: allNames rest := by
  cases f <;> simp_all [allNames, isInclude]

/-- A cons strictly shrinks the remaining schema size. -/
theorem schemaSize_cons_le {aname : String} {f : Attr}
    {rest : List (String × Attr)} {n : Nat}
    (h : schemaSize ((aname, f) :: rest) ≤ n + 1) : schemaSize rest ≤ n := by
  have := attrSize_pos f
  simp [schemaSize] at h
  omega

/-- An `Include` target is strictly smaller than the schema listing it. -/
theorem schemaSize_include_le {aname c : String} :
    ∀ {s sub : List (String × Attr)},
      (aname, Attr.includeA c sub) ∈ s → schemaSize sub + 3 ≤ schemaSize s := by
  intro s
  induction s with
  | nil => intro sub h; cases h
  | cons q rest ih =>
    intro sub h
    obtain ⟨b, g⟩ := q
    rcases List.mem_cons.1 h with he | hm
    · injection he with h1 h2
      subst h2
      simp [schemaSize, attrSize]
      omega
    · have h1 := ih hm
      have h2 := attrSize_pos g
      simp [schemaSize]
      omega

/-- The effective names are drawn from `allNames`, in order. -/
theorem effNames_sublist_allNames :
    ∀ (n : Nat) (s : List (String × Attr)), schemaSize s ≤ n →
      List.Sublist (effNames s) (allNames s) := by
  intro n
  induction n with
  | zero =>
    intro s hs
    cases s with
    | nil => simp [effNames, allNames]
    | cons p r =>
      obtain ⟨a, f⟩ := p
      exfalso
      have h2 := attrSize_pos f
      simp [schemaSize] at hs
      (try omega)
  | succ n ih =>
    intro s hs
    cases s with
    | nil => simp [effNames, allNames]
    | cons p r =>
      obtain ⟨aname, f⟩ := p
      have hr : schemaSize r ≤ n := schemaSize_cons_le hs
      cases f
      case includeA c sub =>
        have hsub : schemaSize sub ≤ n := by
          simp [schemaSize, attrSize] at hs
          omega
        rw [effNames_cons_include, allNames_cons_include]
        exact ((ih sub hsub).append (ih r hr)).cons _
      all_goals
        (rw [effNames_cons_notinclude (by simp [isInclude]),
          allNames_cons_notinclude (by simp [isInclude])]
         exact (ih r hr).cons₂ _)

/-- The declared top-level names are drawn from `allNames`, in order. -/
theorem akeys_sublist_allNames :
    ∀ (s : List (String × Attr)), List.Sublist (akeys s) (allNames s) := by
  intro s
  induction s with
  | nil => simp [akeys, allNames]
  | cons p r ih =>
    obtain ⟨aname, f⟩ := p
    cases f
    case includeA c sub =>
      rw [akeys_cons, allNames_cons_include]
      exact (ih.trans (List.sublist_append_right _ _)).cons₂ _
    all_goals
      (rw [akeys_cons, allNames_cons_notinclude (by simp [isInclude])]
       exact ih.cons₂ _)

/-- A field's name appears in `allNames`. -/
theorem mem_allNames_of_mem {aname : String} {f : Attr} :
    ∀ {s : List (String × Attr)}, (aname, f) ∈ s → aname ∈ allNames s := by
  intro s
  induction s with
  | nil => intro h; cases h
  | cons q r ih =>
    intro h
    obtain ⟨b, g⟩ := q
    rcases List.mem_cons.1 h with he | hm
    · injection he with h1 h2
      subst h1
      subst h2
      cases f <;> simp [allNames]
    · have h1 := ih hm
      cases g <;> simp [allNames, h1]

/-- The names of an `Include` target all appear in the including schema's
`allNames`. -/
theorem allNames_sublist_of_include {aname c : String} :
    ∀ {s sub : List (String × Attr)},
      (aname, Attr.includeA c sub) ∈ s → List.Sublist (allNames sub) (allNames s) := by
  intro s
  induction s with
  | nil => intro sub h; cases h
  | cons q r ih =>
    intro sub h
    obtain ⟨b, g⟩ := q
    rcases List.mem_cons.1 h with he | hm
    · injection he with h1 h2
      subst h2
      rw [allNames_cons_include]
      exact (List.sublist_append_left _ _).cons _
    · have hsub := ih hm
      cases g
      case includeA c2 sub2 =>
        rw [allNames_cons_include]
        exact (hsub.trans (List.sublist_append_right _ _)).cons _
      all_goals
        (rw [allNames_cons_notinclude (by simp [isInclude])]
         exact hsub.cons _)

/-- The effective fields of an `Include` target are effective fields of
the including schema. -/
theorem effFields_subset_of_include {aname c : String} :
    ∀ {s sub : List (String × Attr)},
      (aname, Attr.includeA c sub) ∈ s →
      ∀ p ∈ effFields sub, p ∈ effFields s := by
  intro s
  induction s with
  | nil => intro sub h; cases h
  | cons q r ih =>
    intro sub h p hp
    obtain ⟨b, g⟩ := q
    rcases List.mem_cons.1 h with he | hm
    · injection he with h1 h2
      subst h2
      rw [effFields_cons_include]
      exact List.mem_append_left _ hp
    · have hsub := ih hm p hp
      cases g
      case includeA c2 sub2 =>
        rw [effFields_cons_include]
        exact List.mem_append_right _ hsub
      all_goals
        (rw [effFields_cons_notinclude (by simp [isInclude])]
         exact List.mem_cons_of_mem _ hsub)

/-- `Include.filter` on the empty schema. -/
theorem filterGo_nil {kwargs acc : List (String × Value)} :
    filterGo kwargs acc [] = acc := by
  simp [filterGo]

/-- `Include.filter` at a nested `Include`. -/
theorem filterGo_cons_include {kwargs acc : List (String × Value)}
    {aname c : String} {sub rest : List (String × Attr)} :
    filterGo kwargs acc ((aname, Attr.includeA c sub) :: rest) =
      filterGo kwargs (dupdate acc (filterGo kwargs [] sub)) rest := by
  simp [filterGo]

/-- `Include.filter` at a non-`Include` field. -/
theorem filterGo_cons_notinclude {kwargs acc : List (String × Value)}
    {aname : String} {f : Attr} {rest : List (String × Attr)}
    (hfr : isInclude f = false) :
    filterGo kwargs acc ((aname, f) :: rest) =
      match alookup aname kwargs with
      | some v => filterGo kwargs (dinsert acc aname v) rest
      | none => filterGo kwargs acc rest := by
  cases f <;> simp_all [filterGo, isInclude]

/-- Every entry `Include.filter` produces is a lookup hit of the keyword
mapping. -/
theorem filterGo_mem :
    ∀ (n : Nat) (attrs : List (String × Attr))
      (acc kwargs : List (String × Value)), schemaSize attrs ≤ n →
      (∀ q ∈ acc, alookup q.1 kwargs = some q.2) →
      ∀ q ∈ filterGo kwargs acc attrs, alookup q.1 kwargs = some q.2 := by
  intro n
  induction n with
  | zero =>
    intro attrs acc kwargs hs hacc q hq
    cases attrs with
    | nil => exact hacc q (by simpa [filterGo_nil] using hq)
    | cons p r =>
      obtain ⟨a, f⟩ := p
      exfalso
      have h2 := attrSize_pos f
      simp [schemaSize] at hs
      (try omega)
  | succ n ih =>
    intro attrs acc kwargs hs hacc q hq
    cases attrs with
    | nil => exact hacc q (by simpa [filterGo_nil] using hq)
    | cons p r =>
      obtain ⟨aname, f⟩ := p
      have hr : schemaSize r ≤ n := schemaSize_cons_le hs
      cases f
      case includeA c sub =>
        have hsub : schemaSize sub ≤ n := by
          simp [schemaSize, attrSize] at hs
          omega
        rw [filterGo_cons_include] at hq
        refine ih r _ kwargs hr ?_ q hq
        intro q2 hq2
        rcases mem_dupdate hq2 with h1 | h1
        · exact hacc q2 h1
        · exact ih sub [] kwargs hsub (by simp) q2 h1
      all_goals
        (rw [filterGo_cons_notinclude (by simp [isInclude])] at hq
         cases halo : alookup aname kwargs with
         | some v =>
           rw [halo] at hq
           refine ih r _ kwargs hr ?_ q hq
           intro q2 hq2
           rcases mem_dinsert hq2 with h1 | h1
           · exact hacc q2 h1
           · rw [h1]
             exact halo
         | none =>
           rw [halo] at hq
           exact ih r acc kwargs hr hacc q hq)

/-- Every key `Include.filter` produces is an effective name of the
target schema (or a key already accumulated). -/
theorem filterGo_keys :
    ∀ (n : Nat) (attrs : List (String × Attr))
      (acc kwargs : List (String × Value)), schemaSize attrs ≤ n →
      ∀ x ∈ akeys (filterGo kwargs acc attrs),
        x ∈ akeys acc ∨ x ∈ effNames attrs := by
  intro n
  induction n with
  | zero =>
    intro attrs acc kwargs hs x hx
    cases attrs with
    | nil =>
      rw [filterGo_nil] at hx
      exact Or.inl hx
    | cons p r =>
      obtain ⟨a, f⟩ := p
      exfalso
      have h2 := attrSize_pos f
      simp [schemaSize] at hs
      (try omega)
  | succ n ih =>
    intro attrs acc kwargs hs x hx
    cases attrs with
    | nil =>
      rw [filterGo_nil] at hx
      exact Or.inl hx
    | cons p r =>
      obtain ⟨aname, f⟩ := p
      have hr : schemaSize r ≤ n := schemaSize_cons_le hs
      cases f
      case includeA c sub =>
        have hsub : schemaSize sub ≤ n := by
          simp [schemaSize, attrSize] at hs
          omega
        rw [filterGo_cons_include] at hx
        rw [effNames_cons_include]
        rcases ih r _ kwargs hr x hx with h1 | h1
        · obtain ⟨v, hv⟩ := mem_akeys_iff.1 h1
          rcases mem_dupdate hv with h2 | h2
          · exact Or.inl (mem_akeys h2)
          · rcases ih sub [] kwargs hsub x (mem_akeys_iff.2 ⟨v, h2⟩) with h3 | h3
            · simp [akeys] at h3
            · exact Or.inr (List.mem_append_left _ h3)
        · exact Or.inr (List.mem_append_right _ h1)
      all_goals
        (rw [filterGo_cons_notinclude (by simp [isInclude])] at hx
         rw [effNames_cons_notinclude (by simp [isInclude])]
         cases halo : alookup aname kwargs with
         | some v =>
           rw [halo] at hx
           rcases ih r _ kwargs hr x hx with h1 | h1
           · rw [akeys_dinsert] at h1
             by_cases hm : aname ∈ akeys acc
             · rw [if_pos hm] at h1
               exact Or.inl h1
             · rw [if_neg hm] at h1
               rcases List.mem_append.1 h1 with h2 | h2
               · exact Or.inl h2
               · simp at h2
                 exact Or.inr (by simp [h2])
           · exact Or.inr (List.mem_cons_of_mem _ h1)
         | none =>
           rw [halo] at hx
           rcases ih r acc kwargs hr x hx with h1 | h1
           · exact Or.inl h1
           · exact Or.inr (List.mem_cons_of_mem _ h1))

/-- Every entry of `Include.filter`'s result is an entry of the keyword
mapping. -/
theorem filterA_mem {sub : List (String × Attr)}
    {kwargs : List (String × Value)} {q : String × Value}
    (hq : q ∈ filterA sub kwargs) : alookup q.1 kwargs = some q.2 :=
  filterGo_mem (schemaSize sub) sub [] kwargs (le_refl _) (by simp) q hq

/-- Every key of `Include.filter`'s result is an effective name of the
target. -/
theorem filterA_keys {sub : List (String × Attr)}
    {kwargs : List (String × Value)} {x : String}
    (hx : x ∈ akeys (filterA sub kwargs)) : x ∈ effNames sub := by
  rcases filterGo_keys (schemaSize sub) sub [] kwargs (le_refl _) x hx with h | h
  · simp [akeys] at h
  · exact h

/-- Unfolding of one loop iteration of `Attributee.__init__` for a
non-`Include` field. -/
theorem constructLoop_cons_notinclude {aname : String} {f : Attr}
    {rest : List (String × Attr)} {kwargs fields : List (String × Value)}
    {u sp : List String} (hfr : isInclude f = false) :
    constructLoop ((aname, f) :: rest) kwargs fields u sp =
      match alookup aname kwargs with
      | none =>
        if requiredA f then constructLoop rest kwargs fields u sp
        else (coerceA f (defaultOf f) parentCtx).bind (fun v =>
          constructLoop rest kwargs (dinsert fields aname v)
            (ldiff u [aname]) (ldiff sp [aname]))
      | some raw => (coerceA f raw parentCtx).bind (fun v =>
          constructLoop rest kwargs (dinsert fields aname v)
            (ldiff u [aname]) (ldiff sp [aname])) := by
  cases f <;> simp_all [constructLoop, isInclude, bind]

/-- Unfolding of one loop iteration of `Attributee.__init__` for an
`Include` field. -/
theorem constructLoop_cons_include {aname c : String}
    {sub rest : List (String × Attr)} {kwargs fields : List (String × Value)}
    {u sp : List String} :
    constructLoop ((aname, Attr.includeA c sub) :: rest) kwargs fields u sp =
      (coerceA (Attr.includeA c sub) (Value.vmap (filterA sub kwargs))
          parentCtx).bind (fun v =>
        constructLoop rest kwargs (dinsert fields aname v)
          (ldiff (ldiff u (akeys (filterA sub kwargs))) [aname])
          (ldiff (ldiff sp (akeys (filterA sub kwargs))) [aname])) := by
  simp [constructLoop, bind]

/-- Unfolding of `removedNames` at a non-`Include` field. -/
theorem removedNames_cons_notinclude {aname : String} {f : Attr}
    {rest : List (String × Attr)} {kwargs : List (String × Value)}
    (hfr : isInclude f = false) :
    removedNames ((aname, f) :: rest) kwargs =
      match alookup aname kwargs with
      | some _ => aname :: removedNames rest kwargs
      | none =>
        if requiredA f then removedNames rest kwargs
        else aname :: removedNames rest kwargs := by
  cases f <;> simp_all [removedNames, isInclude]

/-- Every name the loop removes appears in `allNames`. -/
theorem removedNames_subset_allNames {k : String} :
    ∀ {s : List (String × Attr)} {kwargs : List (String × Value)},
      k ∈ removedNames s kwargs → k ∈ allNames s := by
  intro s
  induction s with
  | nil => intro kwargs h; simp [removedNames] at h
  | cons p rest ih =>
    intro kwargs hk
    obtain ⟨aname, f⟩ := p
    cases f
    case includeA c sub =>
      simp only [removedNames] at hk
      rw [allNames_cons_include]
      rcases List.mem_append.1 hk with h1 | h1
      · rcases List.mem_append.1 h1 with h2 | h2
        · have h3 := filterA_keys h2
          have h4 := (effNames_sublist_allNames (schemaSize sub) sub
            (le_refl _)).mem h3
          exact List.mem_cons_of_mem _ (List.mem_append_left _ h4)
        · simp at h2
          simp [h2]
      · exact List.mem_cons_of_mem _ (List.mem_append_right _ (ih h1))
    all_goals
      (rw [removedNames_cons_notinclude (by simp [isInclude])] at hk
       rw [allNames_cons_notinclude (by simp [isInclude])]
       split at hk
       · rcases List.mem_cons.1 hk with h1 | h1
         · simp [h1]
         · exact List.mem_cons_of_mem _ (ih h1)
       · split at hk
         · exact List.mem_cons_of_mem _ (ih hk)
         · rcases List.mem_cons.1 hk with h1 | h1
           · simp [h1]
           · exact List.mem_cons_of_mem _ (ih h1))


/-- A name removed by the loop of an include-free schema is a declared
name. -/
theorem removedNames_subset_keys {k : String} :
    ∀ {s : List (String × Attr)} {kwargs : List (String × Value)},
      (∀ p ∈ s, isInclude p.2 = false) →
      k ∈ removedNames s kwargs → k ∈ akeys s := by
  intro s
  induction s with
  | nil => intro kwargs _ h; simp [removedNames] at h
  | cons p rest ih =>
    obtain ⟨aname, f⟩ := p
    intro kwargs hfree hk
    have hfr : isInclude f = false := hfree (aname, f) (List.mem_cons_self _ _)
    have hrest : ∀ q ∈ rest, isInclude q.2 = false :=
      fun q hq => hfree q (List.mem_cons_of_mem _ hq)
    rw [removedNames_cons_notinclude hfr] at hk
    simp only [akeys, List.map_cons, List.mem_cons]
    cases halo : alookup aname kwargs with
    | some raw =>
      simp [halo] at hk
      rcases hk with rfl | hk
      · exact Or.inl rfl
      · exact Or.inr (ih hrest hk)
    | none =>
      by_cases hreq : requiredA f <;> simp [halo, hreq] at hk
      · exact Or.inr (ih hrest hk)
      · rcases hk with rfl | hk
        · exact Or.inl rfl
        · exact Or.inr (ih hrest hk)

/-- Removing a name that is not in the set is a no-op. -/
theorem ldiff_cons_notmem {s b : List String} {a : String} (h : a ∉ s) :
    ldiff s (a :: b) = ldiff s b := by
  simp only [ldiff]
  apply List.filter_congr
  intro k hk
  have hne : k ≠ a := fun e => h (e ▸ hk)
  simp [List.contains, List.elem_iff, hne]

/-- Removing a name set from a name with the set membership decided. -/
theorem ldiff_cons_left {a : String} {s rm : List String} :
    ldiff (a :: s) rm = if a ∈ rm then ldiff s rm else a :: ldiff s rm := by
  by_cases h : a ∈ rm <;> simp [ldiff, List.filter_cons, List.elem_iff, h]

/-- After the loop of an include-free schema, the residual `unspecified`
set is exactly the required-but-absent fields, in declaration order. -/
theorem ldiff_keys_removed :
    ∀ (s : List (String × Attr)) (kwargs : List (String × Value)),
      (∀ p ∈ s, isInclude p.2 = false) → (akeys s).Nodup →
      ldiff (akeys s) (removedNames s kwargs) = missingNames s kwargs := by
  intro s
  induction s with
  | nil => intro kwargs _ _; simp [akeys, removedNames, missingNames, ldiff]
  | cons p rest ih =>
    obtain ⟨aname, f⟩ := p
    intro kwargs hfree hnod
    have hfr : isInclude f = false := hfree (aname, f) (List.mem_cons_self _ _)
    have hrest : ∀ q ∈ rest, isInclude q.2 = false :=
      fun q hq => hfree q (List.mem_cons_of_mem _ hq)
    have hnod2 : (aname :: akeys rest).Nodup := hnod
    have hnotm : aname ∉ akeys rest := (List.nodup_cons.1 hnod2).1
    have hnodr : (akeys rest).Nodup := (List.nodup_cons.1 hnod2).2
    have hnotrn : aname ∉ removedNames rest kwargs :=
      fun h => hnotm (removedNames_subset_keys hrest h)
    rw [removedNames_cons_notinclude hfr, akeys_cons]
    cases halo : alookup aname kwargs with
    | some raw =>
      simp only [halo]
      rw [ldiff_cons_left, if_pos (List.mem_cons_self _ _),
        ldiff_cons_notmem hnotm, ih kwargs hrest hnodr]
      simp [missingNames, List.filter_cons, halo]
    | none =>
      by_cases hreq : requiredA f
      · simp only [halo, if_pos hreq]
        rw [ldiff_cons_left, if_neg hnotrn, ih kwargs hrest hnodr]
        simp [missingNames, List.filter_cons, halo, hreq]
      · simp only [halo, if_neg hreq]
        rw [ldiff_cons_left, if_pos (List.mem_cons_self _ _),
          ldiff_cons_notmem hnotm, ih kwargs hrest hnodr]
        simp [missingNames, List.filter_cons, halo, hreq]

/-- For a key of the raw mapping, being claimed by the loop of an
include-free schema is being a declared name. -/
theorem mem_removedNames {k : String} :
    ∀ (s : List (String × Attr)) (kwargs : List (String × Value)),
      (∀ p ∈ s, isInclude p.2 = false) → k ∈ akeys kwargs →
      (k ∈ removedNames s kwargs ↔ k ∈ akeys s) := by
  intro s
  induction s with
  | nil => intro kwargs _ _; simp [removedNames, akeys]
  | cons p rest ih =>
    obtain ⟨aname, f⟩ := p
    intro kwargs hfree hkw
    have hfr : isInclude f = false := hfree (aname, f) (List.mem_cons_self _ _)
    have hrest : ∀ q ∈ rest, isInclude q.2 = false :=
      fun q hq => hfree q (List.mem_cons_of_mem _ hq)
    rw [removedNames_cons_notinclude hfr]
    constructor
    · intro h
      cases halo : alookup aname kwargs with
      | some raw =>
        simp [halo] at h
        rcases h with rfl | h
        · simp [akeys]
        · simp only [akeys, List.map_cons, List.mem_cons]
          exact Or.inr ((ih kwargs hrest hkw).1 h)
      | none =>
        by_cases hreq : requiredA f <;> simp [halo, hreq] at h
        · simp only [akeys, List.map_cons, List.mem_cons]
          exact Or.inr ((ih kwargs hrest hkw).1 h)
        · rcases h with rfl | h
          · simp [akeys]
          · simp only [akeys, List.map_cons, List.mem_cons]
            exact Or.inr ((ih kwargs hrest hkw).1 h)
    · intro h
      simp only [akeys, List.map_cons, List.mem_cons] at h
      rcases h with rfl | h
      · cases halo : alookup k kwargs with
        | none => exact absurd (alookup_isSome_of_mem hkw) (by simp [halo])
        | some raw => simp [halo]
      · have hmem := (ih kwargs hrest hkw).2 h
        cases halo : alookup aname kwargs with
        | some raw => simp [halo, hmem]
        | none => by_cases hreq : requiredA f <;> simp [halo, hreq, hmem]

/-- After the loop of an include-free schema, the residual `unconsumed`
set is exactly the keys no declared field claims, in raw order. -/
theorem ldiff_kwargs_removed (s : List (String × Attr))
    (kwargs : List (String × Value))
    (hfree : ∀ p ∈ s, isInclude p.2 = false) :
    ldiff (akeys kwargs) (removedNames s kwargs) = extraNames s kwargs := by
  simp only [ldiff, extraNames]
  apply List.filter_congr
  intro k hk
  have hiff := mem_removedNames s kwargs hfree hk
  by_cases hm : k ∈ akeys s
  · simp [List.contains, List.elem_iff, hm, hiff.2 hm]
  · have : k ∉ removedNames s kwargs := fun h => hm (hiff.1 h)
    simp [List.contains, List.elem_iff, hm, this]

/-- The loop of `Attributee.__init__` over an include-free schema, when
every needed coercion succeeds, runs to completion and leaves exactly the
per-field residual name sets. -/
theorem constructLoop_total :
    ∀ (attrs : List (String × Attr)) (kwargs fields : List (String × Value))
      (u sp : List String),
      (∀ p ∈ attrs, isInclude p.2 = false) →
      (∀ p ∈ attrs, ∀ raw, alookup p.1 kwargs = some raw →
        ∃ v, coerceA p.2 raw parentCtx = Except.ok v) →
      (∀ p ∈ attrs, alookup p.1 kwargs = none → requiredA p.2 = false →
        ∃ v, coerceA p.2 (defaultOf p.2) parentCtx = Except.ok v) →
      ∃ fields2, constructLoop attrs kwargs fields u sp =
        Except.ok (fields2, ldiff u (removedNames attrs kwargs),
          ldiff sp (removedNames attrs kwargs)) := by
  intro attrs
  induction attrs with
  | nil =>
    intro kwargs fields u sp _ _ _
    exact ⟨fields, by simp [constructLoop, removedNames, ldiff_nil]⟩
  | cons p rest ih =>
    obtain ⟨aname, f⟩ := p
    intro kwargs fields u sp hfree hsup hdef
    have hfr : isInclude f = false := hfree (aname, f) (List.mem_cons_self _ _)
    have hrest_free : ∀ q ∈ rest, isInclude q.2 = false :=
      fun q hq => hfree q (List.mem_cons_of_mem _ hq)
    have hrest_sup : ∀ q ∈ rest, ∀ raw, alookup q.1 kwargs = some raw →
        ∃ v, coerceA q.2 raw parentCtx = Except.ok v :=
      fun q hq => hsup q (List.mem_cons_of_mem _ hq)
    have hrest_def : ∀ q ∈ rest, alookup q.1 kwargs = none →
        requiredA q.2 = false →
        ∃ v, coerceA q.2 (defaultOf q.2) parentCtx = Except.ok v :=
      fun q hq => hdef q (List.mem_cons_of_mem _ hq)
    cases halo : alookup aname kwargs with
    | some raw =>
      obtain ⟨v, hv⟩ := hsup (aname, f) (List.mem_cons_self _ _) raw halo
      obtain ⟨fields2, hloop⟩ := ih kwargs (dinsert fields aname v)
        (ldiff u [aname]) (ldiff sp [aname]) hrest_free hrest_sup hrest_def
      refine ⟨fields2, ?_⟩
      rw [constructLoop_cons_notinclude hfr, removedNames_cons_notinclude hfr]
      simp [halo, hv, hloop, ldiff_ldiff, bind, Except.bind]
    | none =>
      by_cases hreq : requiredA f
      · obtain ⟨fields2, hloop⟩ := ih kwargs fields u sp
          hrest_free hrest_sup hrest_def
        refine ⟨fields2, ?_⟩
        rw [constructLoop_cons_notinclude hfr, removedNames_cons_notinclude hfr]
        simp [halo, hreq, hloop]
      · obtain ⟨v, hv⟩ := hdef (aname, f) (List.mem_cons_self _ _) halo
          (by simpa using hreq)
        obtain ⟨fields2, hloop⟩ := ih kwargs (dinsert fields aname v)
          (ldiff u [aname]) (ldiff sp [aname]) hrest_free hrest_sup hrest_def
        refine ⟨fields2, ?_⟩
        rw [constructLoop_cons_notinclude hfr, removedNames_cons_notinclude hfr]
        simp [halo, hreq, hv, hloop, ldiff_ldiff, bind, Except.bind]

/-- A required descriptor stored no default (`required` of the base class
is `is_undefined(self._default)`, and each override only strengthens it). -/
theorem requiredA_storedDefault {f : Attr} (h : requiredA f = true) :
    isUndef (storedDefault f) = true := by
  cases f <;> simp_all [requiredA, storedDefault, isUndef, Bool.and_eq_true]

/-- The `_required` loop of `Nested.__init__` is truth of some field's
`required`. -/
theorem anyRequired_iff :
    ∀ {s : List (String × Attr)},
      anyRequired s = true ↔ ∃ p ∈ s, requiredA p.2 = true := by
  intro s
  induction s with
  | nil => simp [anyRequired]
  | cons p r ih =>
    simp only [anyRequired, Bool.or_eq_true, ih, List.mem_cons]
    constructor
    · rintro (h | ⟨q, hq, hr⟩)
      · exact ⟨p, Or.inl rfl, h⟩
      · exact ⟨q, Or.inr hq, hr⟩
    · rintro ⟨q, (rfl | hq), hr⟩
      · exact Or.inl hr
      · exact Or.inr ⟨q, hq, hr⟩

/-- A descriptor satisfying `isInclude` is an `Include` over some target. -/
theorem isInclude_elim {f : Attr} (h : isInclude f = true) :
    ∃ c sub, f = Attr.includeA c sub := by
  cases f <;> simp_all [isInclude]

/-- Keys of a concatenation of dictionaries. -/
theorem akeys_append {α : Type} (a b : List (String × α)) :
    akeys (a ++ b) = akeys a ++ akeys b := by
  simp [akeys]

/-- An empty difference means every element was removed. -/
theorem ldiff_eq_nil_mem {a b : List String} (h : ldiff a b = [])
    {k : String} (hk : k ∈ a) : k ∈ b := by
  by_contra hkb
  have hmem : k ∈ ldiff a b := by
    simp [ldiff, List.mem_filter, hk, List.elem_iff, List.contains, hkb]
  rw [h] at hmem
  cases hmem

/-- With duplicate-free keys, membership determines the lookup. -/
theorem alookup_eq_of_mem_nodup {α : Type} {k : String} {v : α} :
    ∀ {l : List (String × α)}, (akeys l).Nodup → (k, v) ∈ l →
      alookup k l = some v := by
  intro l
  induction l with
  | nil => intro _ h; cases h
  | cons p r ih =>
    intro hnod hm
    obtain ⟨k2, w⟩ := p
    rw [akeys_cons] at hnod
    rcases List.mem_cons.1 hm with he | hm2
    · injection he with h1 h2
      subst h1
      subst h2
      simp [alookup]
    · have hne : k2 ≠ k := fun e =>
        (List.nodup_cons.1 hnod).1 (by rw [e]; exact mem_akeys hm2)
      simp [alookup, hne, ih (List.nodup_cons.1 hnod).2 hm2]

/-- Unfolding of the loop input at an `Include` field. -/
theorem pfInput_include {c aname : String} {sub : List (String × Attr)}
    {kwargs : List (String × Value)} :
    pfInput (Attr.includeA c sub) aname kwargs =
      Value.vmap (filterA sub kwargs) := rfl

/-- Unfolding of the loop input at a non-`Include` field. -/
theorem pfInput_notinclude {aname : String} {f : Attr}
    {kwargs : List (String × Value)} (hfr : isInclude f = false) :
    pfInput f aname kwargs =
      match alookup aname kwargs with
      | some raw => raw
      | none => defaultOf f := by
  cases f <;> simp_all [pfInput, isInclude]

/-- Unfolding of the per-field loop characterization at a non-`Include`
field. -/
theorem PerField_cons_notinclude {aname : String} {f : Attr}
    {rest : List (String × Attr)} {kwargs entries : List (String × Value)}
    (hfr : isInclude f = false) :
    PerField ((aname, f) :: rest) kwargs entries ↔
      (match alookup aname kwargs with
      | some raw =>
        ∃ v tail, coerceA f raw parentCtx = Except.ok v
          ∧ entries = (aname, v) :: tail ∧ PerField rest kwargs tail
      | none =>
        if requiredA f = true then PerField rest kwargs entries
        else ∃ v tail, coerceA f (defaultOf f) parentCtx = Except.ok v
          ∧ entries = (aname, v) :: tail ∧ PerField rest kwargs tail) := by
  cases f
  case includeA c sub => simp [isInclude] at hfr
  all_goals exact Iff.rfl

/-- A required, raw-absent field name that no other declared field reuses
is never claimed by the field loop. -/
theorem not_mem_removedNames_req {aname : String} :
    ∀ {s : List (String × Attr)} {kwargs : List (String × Value)},
      (akeys s).Nodup → aname ∉ akeys kwargs →
      (∀ g, (aname, g) ∈ s → isInclude g = false ∧ requiredA g = true) →
      aname ∉ removedNames s kwargs := by
  intro s
  induction s with
  | nil => intro kwargs _ _ _ h; simp [removedNames] at h
  | cons p rest ih =>
    obtain ⟨bname, f⟩ := p
    intro kwargs hnod hkw hreq hmem
    rw [akeys_cons] at hnod
    have hnodr := (List.nodup_cons.1 hnod).2
    have hreqr : ∀ g, (aname, g) ∈ rest →
        isInclude g = false ∧ requiredA g = true :=
      fun g hg => hreq g (List.mem_cons_of_mem _ hg)
    by_cases hinc : isInclude f = true
    · obtain ⟨c, sub, rfl⟩ := isInclude_elim hinc
      simp only [removedNames] at hmem
      rcases List.mem_append.1 hmem with h1 | h1
      · rcases List.mem_append.1 h1 with h2 | h2
        · obtain ⟨v, hv⟩ := mem_akeys_iff.1 h2
          exact hkw (mem_akeys (alookup_mem (filterA_mem hv)))
        · simp at h2
          subst h2
          exact absurd (hreq _ (List.mem_cons_self _ _)).1 (by simp [isInclude])
      · exact ih hnodr hkw hreqr h1
    · have hfr : isInclude f = false := by simpa using hinc
      rw [removedNames_cons_notinclude hfr] at hmem
      by_cases hab : aname = bname
      · subst hab
        have h2 := hreq f (List.mem_cons_self _ _)
        have halo : alookup aname kwargs = none := alookup_none_iff.2 hkw
        simp only [halo] at hmem
        rw [if_pos h2.2] at hmem
        exact ih hnodr hkw hreqr hmem
      · cases halo : alookup bname kwargs with
        | some raw =>
          simp only [halo] at hmem
          rcases List.mem_cons.1 hmem with h1 | h1
          · exact hab h1
          · exact ih hnodr hkw hreqr h1
        | none =>
          simp only [halo] at hmem
          by_cases hreqf : requiredA f = true
          · rw [if_pos hreqf] at hmem
            exact ih hnodr hkw hreqr hmem
          · rw [if_neg hreqf] at hmem
            rcases List.mem_cons.1 hmem with h1 | h1
            · exact hab h1
            · exact ih hnodr hkw hreqr h1

/-- Inversion of a successful run of the field loop of
`Attributee.__init__` (over fresh, duplicate-free declared names): the
final field dictionary is the incoming one extended by one entry per
non-skipped field in declaration order, exactly as `PerField` describes,
and the residual name sets are the incoming ones minus the claimed
names. -/
theorem constructLoop_ok :
    ∀ (attrs : List (String × Attr)) (kwargs fields : List (String × Value))
      (u sp : List String) (fres : List (String × Value))
      (ures spres : List String),
      (akeys attrs).Nodup →
      (∀ k ∈ akeys attrs, k ∉ akeys fields) →
      constructLoop attrs kwargs fields u sp = Except.ok (fres, ures, spres) →
      ∃ entries, fres = fields ++ entries ∧ PerField attrs kwargs entries ∧
        ures = ldiff u (removedNames attrs kwargs) ∧
        spres = ldiff sp (removedNames attrs kwargs) := by
  intro attrs
  induction attrs with
  | nil =>
    intro kwargs fields u sp fres ures spres _ _ hloop
    simp [constructLoop] at hloop
    obtain ⟨rfl, rfl, rfl⟩ := hloop
    exact ⟨[], by simp, by simp [PerField],
      by simp [removedNames, ldiff_nil], by simp [removedNames, ldiff_nil]⟩
  | cons p rest ih =>
    obtain ⟨bname, f⟩ := p
    intro kwargs fields u sp fres ures spres hnod hfresh hloop
    rw [akeys_cons] at hnod
    have hbf : bname ∉ akeys fields :=
      hfresh bname (by rw [akeys_cons]; exact List.mem_cons_self _ _)
    have hnodr := (List.nodup_cons.1 hnod).2
    have hbnr : bname ∉ akeys rest := (List.nodup_cons.1 hnod).1
    have hfreshr : ∀ (w : Value), ∀ k ∈ akeys rest,
        k ∉ akeys (fields ++ [(bname, w)]) := by
      intro w k hk
      rw [akeys_append]
      simp only [List.mem_append]
      push_neg
      refine ⟨hfresh k (by rw [akeys_cons]; exact List.mem_cons_of_mem _ hk), ?_⟩
      simp [akeys]
      exact fun e => hbnr (e ▸ hk)
    by_cases hinc : isInclude f = true
    · obtain ⟨c, sub, rfl⟩ := isInclude_elim hinc
      rw [constructLoop_cons_include] at hloop
      cases hco : coerceA (Attr.includeA c sub)
          (Value.vmap (filterA sub kwargs)) parentCtx with
      | error e =>
        rw [hco] at hloop
        simp [Except.bind] at hloop
      | ok v =>
        rw [hco] at hloop
        simp only [Except.bind] at hloop
        rw [dinsert_fresh hbf] at hloop
        obtain ⟨entries, he1, he2, he3, he4⟩ :=
          ih kwargs (fields ++ [(bname, v)]) _ _ _ _ _ hnodr (hfreshr v) hloop
        refine ⟨(bname, v) :: entries, ?_, ?_, ?_, ?_⟩
        · rw [he1]
          simp
        · simp only [PerField]
          exact ⟨v, entries, hco, rfl, he2⟩
        · rw [he3]
          simp only [removedNames]
          rw [ldiff_ldiff, ldiff_ldiff, List.append_assoc]
        · rw [he4]
          simp only [removedNames]
          rw [ldiff_ldiff, ldiff_ldiff, List.append_assoc]
    · have hfr : isInclude f = false := by simpa using hinc
      rw [constructLoop_cons_notinclude hfr] at hloop
      cases halo : alookup bname kwargs with
      | some raw =>
        simp only [halo] at hloop
        cases hco : coerceA f raw parentCtx with
        | error e =>
          rw [hco] at hloop
          simp [Except.bind] at hloop
        | ok v =>
          rw [hco] at hloop
          simp only [Except.bind] at hloop
          rw [dinsert_fresh hbf] at hloop
          obtain ⟨entries, he1, he2, he3, he4⟩ :=
            ih kwargs (fields ++ [(bname, v)]) _ _ _ _ _ hnodr (hfreshr v) hloop
          refine ⟨(bname, v) :: entries, ?_, ?_, ?_, ?_⟩
          · rw [he1]
            simp
          · rw [PerField_cons_notinclude hfr]
            simp only [halo]
            exact ⟨v, entries, hco, rfl, he2⟩
          · rw [he3, removedNames_cons_notinclude hfr]
            simp only [halo]
            rw [ldiff_ldiff, List.singleton_append]
          · rw [he4, removedNames_cons_notinclude hfr]
            simp only [halo]
            rw [ldiff_ldiff, List.singleton_append]
      | none =>
        simp only [halo] at hloop
        by_cases hreqf : requiredA f = true
        · rw [if_pos hreqf] at hloop
          obtain ⟨entries, he1, he2, he3, he4⟩ :=
            ih kwargs fields u sp _ _ _ hnodr
              (fun k hk =>
                hfresh k (by rw [akeys_cons]; exact List.mem_cons_of_mem _ hk))
              hloop
          refine ⟨entries, he1, ?_, ?_, ?_⟩
          · rw [PerField_cons_notinclude hfr]
            simp only [halo]
            rw [if_pos hreqf]
            exact he2
          · rw [he3, removedNames_cons_notinclude hfr]
            simp only [halo]
            rw [if_pos hreqf]
          · rw [he4, removedNames_cons_notinclude hfr]
            simp only [halo]
            rw [if_pos hreqf]
        · rw [if_neg hreqf] at hloop
          cases hco : coerceA f (defaultOf f) parentCtx with
          | error e =>
            rw [hco] at hloop
            simp [Except.bind] at hloop
          | ok v =>
            rw [hco] at hloop
            simp only [Except.bind] at hloop
            rw [dinsert_fresh hbf] at hloop
            obtain ⟨entries, he1, he2, he3, he4⟩ :=
              ih kwargs (fields ++ [(bname, v)]) _ _ _ _ _ hnodr (hfreshr v) hloop
            refine ⟨(bname, v) :: entries, ?_, ?_, ?_, ?_⟩
            · rw [he1]
              simp
            · rw [PerField_cons_notinclude hfr]
              simp only [halo]
              rw [if_neg hreqf]
              exact ⟨v, entries, hco, rfl, he2⟩
            · rw [he3, removedNames_cons_notinclude hfr]
              simp only [halo]
              rw [if_neg hreqf, ldiff_ldiff, List.singleton_append]
            · rw [he4, removedNames_cons_notinclude hfr]
              simp only [halo]
              rw [if_neg hreqf, ldiff_ldiff, List.singleton_append]

/-- Inversion of a successful `Attributee.__init__`: the instance holds
the per-field loop bindings, and both residual name sets emptied out. -/
theorem constructA_ok_inv {c : String} {s : List (String × Attr)}
    {kwargs : List (String × Value)} {inst : Value}
    (hnod : (akeys s).Nodup)
    (hok : constructA c s kwargs = Except.ok inst) :
    ∃ entries, inst = Value.vinst c s entries ∧ PerField s kwargs entries ∧
      ldiff (akeys kwargs) (removedNames s kwargs) = [] ∧
      ldiff (akeys s) (removedNames s kwargs) = [] := by
  cases hloop : constructLoop s kwargs [] (akeys kwargs) (akeys s) with
  | error e => simp [constructA, hloop, bind, Except.bind] at hok
  | ok r =>
    obtain ⟨fres, ures, spres⟩ := r
    simp only [constructA, hloop, bind, Except.bind] at hok
    by_cases h1 : spres.isEmpty
    · by_cases h2 : ures.isEmpty
      · rw [if_pos h1, if_pos h2] at hok
        injection hok with h3
        obtain ⟨entries, he1, he2, he3, he4⟩ :=
          constructLoop_ok s kwargs [] (akeys kwargs) (akeys s) fres ures spres
            hnod (by simp [akeys]) hloop
        refine ⟨entries, ?_, he2, ?_, ?_⟩
        · rw [← h3, he1]
          simp
        · rw [← he3]
          exact List.isEmpty_iff.1 h2
        · rw [← he4]
          exact List.isEmpty_iff.1 h1
      · rw [if_pos h1, if_neg h2] at hok
        simp at hok
    · rw [if_neg h1] at hok
      simp at hok

/-- What a successful loop lets each declared field look up afterwards:
the entry under the field's name holds the coercion of that field's loop
input (no required field being skipped, and the declared names being
duplicate-free). -/
theorem PerField_alookup :
    ∀ {attrs : List (String × Attr)} {kwargs entries : List (String × Value)},
      PerField attrs kwargs entries → (akeys attrs).Nodup →
      (∀ b g2, (b, g2) ∈ attrs → isInclude g2 = false → requiredA g2 = true →
        b ∈ akeys kwargs) →
      ∀ (aname : String) (g : Attr), (aname, g) ∈ attrs →
      ∃ v, alookup aname entries = some v ∧
        coerceA g (pfInput g aname kwargs) parentCtx = Except.ok v := by
  intro attrs
  induction attrs with
  | nil => intro kwargs entries _ _ _ aname g hm; cases hm
  | cons p rest ih =>
    obtain ⟨bname, f⟩ := p
    intro kwargs entries hpf hnod hns aname g hm
    rw [akeys_cons] at hnod
    have hnodr := (List.nodup_cons.1 hnod).2
    have hbnr : bname ∉ akeys rest := (List.nodup_cons.1 hnod).1
    have hnsr : ∀ b g2, (b, g2) ∈ rest → isInclude g2 = false →
        requiredA g2 = true → b ∈ akeys kwargs :=
      fun b g2 hb => hns b g2 (List.mem_cons_of_mem _ hb)
    rcases List.mem_cons.1 hm with he | hm2
    · injection he with h1 h2
      subst h1
      subst h2
      by_cases hinc : isInclude g = true
      · obtain ⟨c, sub, rfl⟩ := isInclude_elim hinc
        simp only [PerField] at hpf
        obtain ⟨v, tail, hco, rfl, _⟩ := hpf
        exact ⟨v, by simp [alookup], by rw [pfInput_include]; exact hco⟩
      · have hfr : isInclude g = false := by simpa using hinc
        rw [PerField_cons_notinclude hfr] at hpf
        cases halo : alookup aname kwargs with
        | some raw =>
          simp only [halo] at hpf
          obtain ⟨v, tail, hco, rfl, _⟩ := hpf
          refine ⟨v, by simp [alookup], ?_⟩
          rw [pfInput_notinclude hfr]
          simp only [halo]
          exact hco
        | none =>
          simp only [halo] at hpf
          by_cases hreqf : requiredA g = true
          · exact absurd (hns aname g (List.mem_cons_self _ _) hfr hreqf)
              (alookup_none_iff.1 halo)
          · rw [if_neg hreqf] at hpf
            obtain ⟨v, tail, hco, rfl, _⟩ := hpf
            refine ⟨v, by simp [alookup], ?_⟩
            rw [pfInput_notinclude hfr]
            simp only [halo]
            exact hco
    · have haname : aname ∈ akeys rest := mem_akeys_iff.2 ⟨g, hm2⟩
      have hne : bname ≠ aname := fun e => hbnr (by rw [e]; exact haname)
      by_cases hinc : isInclude f = true
      · obtain ⟨c, sub, rfl⟩ := isInclude_elim hinc
        simp only [PerField] at hpf
        obtain ⟨v, tail, hco, rfl, hpt⟩ := hpf
        obtain ⟨w, hw1, hw2⟩ := ih hpt hnodr hnsr aname g hm2
        exact ⟨w, by simp [alookup, hne, hw1], hw2⟩
      · have hfr : isInclude f = false := by simpa using hinc
        rw [PerField_cons_notinclude hfr] at hpf
        cases halo : alookup bname kwargs with
        | some raw =>
          simp only [halo] at hpf
          obtain ⟨v, tail, hco, rfl, hpt⟩ := hpf
          obtain ⟨w, hw1, hw2⟩ := ih hpt hnodr hnsr aname g hm2
          exact ⟨w, by simp [alookup, hne, hw1], hw2⟩
        | none =>
          simp only [halo] at hpf
          by_cases hreqf : requiredA f = true
          · exact absurd (hns bname f (List.mem_cons_self _ _) hfr hreqf)
              (alookup_none_iff.1 halo)
          · rw [if_neg hreqf] at hpf
            obtain ⟨v, tail, hco, rfl, hpt⟩ := hpf
            obtain ⟨w, hw1, hw2⟩ := ih hpt hnodr hnsr aname g hm2
            exact ⟨w, by simp [alookup, hne, hw1], hw2⟩

/-- The round-trip image of the empty schema. -/
theorem specExpected_nil {kwargs : List (String × Value)} :
    specExpected [] kwargs = Except.ok [] := by
  simp [specExpected]

/-- The round-trip image at an `Include` field. -/
theorem specExpected_cons_include {aname c : String}
    {sub rest : List (String × Attr)} {kwargs : List (String × Value)} :
    specExpected ((aname, Attr.includeA c sub) :: rest) kwargs =
      (specExpected sub (filterA sub kwargs)).bind (fun es =>
        (specExpected rest kwargs).bind (fun rs => Except.ok (es ++ rs))) := by
  simp [specExpected, bind]

/-- The round-trip image at a non-`Include` field. -/
theorem specExpected_cons_notinclude {aname : String} {f : Attr}
    {rest : List (String × Attr)} {kwargs : List (String × Value)}
    (hfr : isInclude f = false) :
    specExpected ((aname, f) :: rest) kwargs =
      match alookup aname kwargs with
      | some v =>
        (specExpected rest kwargs).bind (fun rs =>
          Except.ok ((aname, v) :: rs))
      | none =>
        if requiredA f then Except.error (Err.missingArguments [aname])
        else (coerceA f (defaultOf f) parentCtx).bind (fun d =>
          (dumpA f d).bind (fun dd =>
            (specExpected rest kwargs).bind (fun rs =>
              Except.ok ((aname, dd) :: rs)))) := by
  cases f <;> simp_all [specExpected, isInclude, bind]

/-- Unfolding of one field of `Attributee.dump`. -/
theorem dumpField_eq (aname : String) (g : Attr)
    (fields : List (String × Value)) :
    dumpField aname g fields =
      dumpA g ((alookup aname fields).getD (defaultOf g)) := by
  simp [dumpField]

/-- Unfolding of one iteration of `Attributee.dump` at an `Include`
field. -/
theorem dumpLoop_cons_include {aname c : String}
    {sub rest : List (String × Attr)}
    {fields serialized : List (String × Value)} :
    dumpLoop ((aname, Attr.includeA c sub) :: rest) fields serialized =
      (dumpField aname (Attr.includeA c sub) fields).bind (fun d =>
        match d with
        | .vmap es => dumpLoop rest fields (dupdate serialized es)
        | _ => Except.error Err.dumpError) := by
  simp [dumpLoop, bind]

/-- Unfolding of one iteration of `Attributee.dump` at a non-`Include`
field. -/
theorem dumpLoop_cons_notinclude {aname : String} {f : Attr}
    {rest : List (String × Attr)} {fields serialized : List (String × Value)}
    (hfr : isInclude f = false) :
    dumpLoop ((aname, f) :: rest) fields serialized =
      (dumpField aname f fields).bind (fun d =>
        dumpLoop rest fields (dinsert serialized aname d)) := by
  cases f <;> simp_all [dumpLoop, isInclude, bind]

/-- The keys of a successful round-trip image are exactly the effective
field names, in declaration order. -/
theorem specExpected_keys :
    ∀ (n : Nat) (s : List (String × Attr)), schemaSize s ≤ n →
      ∀ (kwargs es : List (String × Value)),
      specExpected s kwargs = Except.ok es → akeys es = effNames s := by
  intro n
  induction n with
  | zero =>
    intro s hs kwargs es hok
    cases s with
    | nil =>
      rw [specExpected_nil] at hok
      injection hok with h
      subst h
      simp [akeys, effNames]
    | cons p r =>
      obtain ⟨a, f⟩ := p
      exfalso
      have h2 := attrSize_pos f
      simp [schemaSize] at hs
      (try omega)
  | succ n ih =>
    intro s hs kwargs es hok
    cases s with
    | nil =>
      rw [specExpected_nil] at hok
      injection hok with h
      subst h
      simp [akeys, effNames]
    | cons p r =>
      obtain ⟨aname, f⟩ := p
      have hr : schemaSize r ≤ n := schemaSize_cons_le hs
      by_cases hinc : isInclude f = true
      · obtain ⟨c, sub, rfl⟩ := isInclude_elim hinc
        have hsub : schemaSize sub ≤ n := by
          simp [schemaSize, attrSize] at hs
          omega
        rw [specExpected_cons_include] at hok
        cases h1 : specExpected sub (filterA sub kwargs) with
        | error e =>
          rw [h1] at hok
          simp [Except.bind] at hok
        | ok es1 =>
          rw [h1] at hok
          simp only [Except.bind] at hok
          cases h2 : specExpected r kwargs with
          | error e =>
            rw [h2] at hok
            simp [Except.bind] at hok
          | ok rs =>
            rw [h2] at hok
            simp only [Except.bind] at hok
            injection hok with h3
            subst h3
            rw [effNames_cons_include, akeys_append,
              ih sub hsub _ _ h1, ih r hr _ _ h2]
      · have hfr : isInclude f = false := by simpa using hinc
        rw [specExpected_cons_notinclude hfr] at hok
        rw [effNames_cons_notinclude hfr]
        cases halo : alookup aname kwargs with
        | some v =>
          simp only [halo] at hok
          cases h2 : specExpected r kwargs with
          | error e =>
            rw [h2] at hok
            simp [Except.bind] at hok
          | ok rs =>
            rw [h2] at hok
            simp only [Except.bind] at hok
            injection hok with h3
            subst h3
            rw [akeys_cons, ih r hr _ _ h2]
        | none =>
          simp only [halo] at hok
          by_cases hreqf : requiredA f = true
          · rw [if_pos hreqf] at hok
            simp at hok
          · rw [if_neg hreqf] at hok
            cases hco : coerceA f (defaultOf f) parentCtx with
            | error e =>
              rw [hco] at hok
              simp [Except.bind] at hok
            | ok d =>
              rw [hco] at hok
              simp only [Except.bind] at hok
              cases hdd : dumpA f d with
              | error e =>
                rw [hdd] at hok
                simp [Except.bind] at hok
              | ok dd =>
                rw [hdd] at hok
                simp only [Except.bind] at hok
                cases h2 : specExpected r kwargs with
                | error e =>
                  rw [h2] at hok
                  simp [Except.bind] at hok
                | ok rs =>
                  rw [h2] at hok
                  simp only [Except.bind] at hok
                  injection hok with h3
                  subst h3
                  rw [akeys_cons, ih r hr _ _ h2]

/-- The dump loop over the fields bound by a successful construction
produces exactly the spec's round-trip image, appended behind the
serialization accumulated so far. -/
theorem dumpLoop_spec_aux :
    ∀ (attrs : List (String × Attr))
      (kwargs fields serialized : List (String × Value)),
      (∀ aname g, (aname, g) ∈ attrs → ∃ v, alookup aname fields = some v ∧
        coerceA g (pfInput g aname kwargs) parentCtx = Except.ok v) →
      (∀ aname g, (aname, g) ∈ attrs → isInclude g = false →
        requiredA g = true → aname ∈ akeys kwargs) →
      (∀ k v g, (k, v) ∈ kwargs → (k, g) ∈ effFields attrs →
        (coerceA g v parentCtx).bind (dumpA g) = Except.ok v) →
      (∀ aname c sub, (aname, Attr.includeA c sub) ∈ attrs →
        ∀ inst2, constructA c sub (filterA sub kwargs) = Except.ok inst2 →
        ∃ flds, inst2 = Value.vinst c sub flds ∧
          dumpLoop sub flds [] = specExpected sub (filterA sub kwargs)) →
      (effNames attrs).Nodup →
      (∀ k ∈ effNames attrs, k ∉ akeys serialized) →
      dumpLoop attrs fields serialized =
        (specExpected attrs kwargs).map (fun es => serialized ++ es) := by
  intro attrs
  induction attrs with
  | nil =>
    intro kwargs fields serialized _ _ _ _ _ _
    rw [specExpected_nil]
    simp [dumpLoop, Except.map]
  | cons p rest ih =>
    obtain ⟨bname, f⟩ := p
    intro kwargs fields serialized HA HNS HN HIH HND HF
    have HAr : ∀ aname g, (aname, g) ∈ rest →
        ∃ v, alookup aname fields = some v ∧
          coerceA g (pfInput g aname kwargs) parentCtx = Except.ok v :=
      fun a g hg => HA a g (List.mem_cons_of_mem _ hg)
    have HNSr : ∀ aname g, (aname, g) ∈ rest → isInclude g = false →
        requiredA g = true → aname ∈ akeys kwargs :=
      fun a g hg => HNS a g (List.mem_cons_of_mem _ hg)
    have HIHr : ∀ aname c sub, (aname, Attr.includeA c sub) ∈ rest →
        ∀ inst2, constructA c sub (filterA sub kwargs) = Except.ok inst2 →
        ∃ flds, inst2 = Value.vinst c sub flds ∧
          dumpLoop sub flds [] = specExpected sub (filterA sub kwargs) :=
      fun a c sub hg => HIH a c sub (List.mem_cons_of_mem _ hg)
    obtain ⟨v, hlk, hco⟩ := HA bname f (List.mem_cons_self _ _)
    by_cases hinc : isInclude f = true
    · obtain ⟨c, sub, rfl⟩ := isInclude_elim hinc
      simp only [effNames_cons_include] at HND HF
      rw [pfInput_include] at hco
      have hco2 : constructA c sub (filterA sub kwargs) = Except.ok v := by
        simpa [coerceA] using hco
      obtain ⟨flds, rfl, hdsub⟩ :=
        HIH bname c sub (List.mem_cons_self _ _) v hco2
      have hdmpA : dumpA (Attr.includeA c sub) (Value.vinst c sub flds) =
          (dumpLoop sub flds []).bind (fun es => Except.ok (Value.vmap es)) := by
        simp [dumpA, bind]
      rw [dumpLoop_cons_include, dumpField_eq, hlk, Option.getD_some,
        hdmpA, hdsub, specExpected_cons_include]
      cases hse : specExpected sub (filterA sub kwargs) with
      | error e => simp [Except.bind, Except.map]
      | ok es =>
        simp only [Except.bind]
        have hkeys : akeys es = effNames sub :=
          specExpected_keys (schemaSize sub) sub (le_refl _) _ _ hse
        have hnodSub : (effNames sub).Nodup := (List.nodup_append.1 HND).1
        have HNDr : (effNames rest).Nodup := (List.nodup_append.1 HND).2.1
        have hdisj := (List.nodup_append.1 HND).2.2
        have hupd : dupdate serialized es = serialized ++ es := by
          refine dupdate_fresh es serialized ?_ (by rw [hkeys]; exact hnodSub)
          intro x hx
          rw [hkeys] at hx
          exact HF x (List.mem_append_left _ hx)
        rw [hupd]
        have HNr : ∀ k v2 g, (k, v2) ∈ kwargs → (k, g) ∈ effFields rest →
            (coerceA g v2 parentCtx).bind (dumpA g) = Except.ok v2 :=
          fun k v2 g hkv hg => HN k v2 g hkv
            (by rw [effFields_cons_include]; exact List.mem_append_right _ hg)
        have HFr : ∀ k ∈ effNames rest, k ∉ akeys (serialized ++ es) := by
          intro k hk
          rw [akeys_append]
          simp only [List.mem_append]
          push_neg
          refine ⟨HF k (List.mem_append_right _ hk), ?_⟩
          intro hks
          rw [hkeys] at hks
          exact hdisj hks hk
        rw [ih kwargs fields (serialized ++ es) HAr HNSr HNr HIHr HNDr HFr]
        cases specExpected rest kwargs <;>
          simp [Except.bind, Except.map, List.append_assoc]
    · have hfr : isInclude f = false := by simpa using hinc
      simp only [effNames_cons_notinclude hfr] at HND HF
      rw [dumpLoop_cons_notinclude hfr, dumpField_eq, hlk, Option.getD_some,
        specExpected_cons_notinclude hfr]
      have hbns : bname ∉ akeys serialized := HF bname (List.mem_cons_self _ _)
      have hbnr2 : bname ∉ effNames rest := (List.nodup_cons.1 HND).1
      have HNDr : (effNames rest).Nodup := (List.nodup_cons.1 HND).2
      have HNr : ∀ k v2 g, (k, v2) ∈ kwargs → (k, g) ∈ effFields rest →
          (coerceA g v2 parentCtx).bind (dumpA g) = Except.ok v2 :=
        fun k v2 g hkv hg => HN k v2 g hkv
          (by rw [effFields_cons_notinclude hfr]
              exact List.mem_cons_of_mem _ hg)
      have HFr : ∀ (w : Value), ∀ k ∈ effNames rest,
          k ∉ akeys (serialized ++ [(bname, w)]) := by
        intro w k hk
        rw [akeys_append]
        simp only [List.mem_append]
        push_neg
        refine ⟨HF k (List.mem_cons_of_mem _ hk), ?_⟩
        simp [akeys]
        exact fun e => hbnr2 (e ▸ hk)
      cases halo : alookup bname kwargs with
      | some raw =>
        simp only [halo]
        rw [pfInput_notinclude hfr] at hco
        simp only [halo] at hco
        have hnm := HN bname raw f (alookup_mem halo)
          (by rw [effFields_cons_notinclude hfr]; exact List.mem_cons_self _ _)
        rw [hco] at hnm
        simp only [Except.bind] at hnm
        rw [hnm]
        simp only [Except.bind]
        rw [dinsert_fresh hbns,
          ih kwargs fields _ HAr HNSr HNr HIHr HNDr (HFr raw)]
        cases specExpected rest kwargs <;>
          simp [Except.bind, Except.map, List.append_assoc]
      | none =>
        simp only [halo]
        by_cases hreqf : requiredA f = true
        · exact absurd (HNS bname f (List.mem_cons_self _ _) hfr hreqf)
            (alookup_none_iff.1 halo)
        · rw [if_neg hreqf]
          rw [pfInput_notinclude hfr] at hco
          simp only [halo] at hco
          rw [hco]
          simp only [Except.bind]
          cases hdd : dumpA f v with
          | error e => simp [Except.bind, Except.map]
          | ok dd =>
            simp only [Except.bind]
            rw [dinsert_fresh hbns,
              ih kwargs fields _ HAr HNSr HNr HIHr HNDr (HFr dd)]
            cases specExpected rest kwargs <;>
              simp [Except.bind, Except.map, List.append_assoc]

/-- Round trip by strong induction on schema size: when the declared
flattened names are duplicate-free and every supplied raw value is a
fixed point of its field's coerce-then-dump normalization, a successful
construction dumps to exactly the spec's round-trip image. -/
theorem roundTripAux :
    ∀ (n : Nat) (s : List (String × Attr)), schemaSize s ≤ n →
      ∀ (c : String) (kwargs : List (String × Value)) (inst : Value),
      (allNames s).Nodup →
      (∀ k v g, (k, v) ∈ kwargs → (k, g) ∈ effFields s →
        (coerceA g v parentCtx).bind (dumpA g) = Except.ok v) →
      constructA c s kwargs = Except.ok inst →
      ∃ fields, inst = Value.vinst c s fields ∧
        dumpLoop s fields [] = specExpected s kwargs := by
  intro n
  induction n with
  | zero =>
    intro s hs c kwargs inst _ _ hok
    cases s with
    | cons p r =>
      obtain ⟨a, f⟩ := p
      exfalso
      have h2 := attrSize_pos f
      simp [schemaSize] at hs
      (try omega)
    | nil =>
      obtain ⟨entries, hinst, hpf, _, _⟩ :=
        constructA_ok_inv (by simp [akeys]) hok
      simp only [PerField] at hpf
      subst hpf
      exact ⟨[], hinst, by rw [specExpected_nil]; simp [dumpLoop]⟩
  | succ n ih =>
    intro s hs c kwargs inst hnames hnorm hok
    have hks : (akeys s).Nodup :=
      List.Nodup.sublist (akeys_sublist_allNames s) hnames
    obtain ⟨entries, hinst, hpf, huc, hus⟩ := constructA_ok_inv hks hok
    have hNS : ∀ a g, (a, g) ∈ s → isInclude g = false → requiredA g = true →
        a ∈ akeys kwargs := by
      intro a g hm hfr hreq
      by_contra hna
      have honly : ∀ g2, (a, g2) ∈ s →
          isInclude g2 = false ∧ requiredA g2 = true := by
        intro g2 hm2
        have h1 := alookup_eq_of_mem_nodup hks hm
        have h2 := alookup_eq_of_mem_nodup hks hm2
        rw [h1] at h2
        injection h2 with h3
        subst h3
        exact ⟨hfr, hreq⟩
      exact not_mem_removedNames_req hks hna honly
        (ldiff_eq_nil_mem hus (mem_akeys hm))
    have hHA := PerField_alookup hpf hks hNS
    have hHIH : ∀ a c2 sub, (a, Attr.includeA c2 sub) ∈ s →
        ∀ inst2, constructA c2 sub (filterA sub kwargs) = Except.ok inst2 →
        ∃ flds, inst2 = Value.vinst c2 sub flds ∧
          dumpLoop sub flds [] = specExpected sub (filterA sub kwargs) := by
      intro a c2 sub hm inst2 hok2
      have hsub : schemaSize sub ≤ n := by
        have h1 := schemaSize_include_le hm
        omega
      refine ih sub hsub c2 (filterA sub kwargs) inst2 ?_ ?_ hok2
      · exact List.Nodup.sublist (allNames_sublist_of_include hm) hnames
      · intro k v g hkv hg
        exact hnorm k v g (alookup_mem (filterA_mem hkv))
          (effFields_subset_of_include hm _ hg)
    have hdump := dumpLoop_spec_aux s kwargs entries [] hHA hNS hnorm hHIH
      (List.Nodup.sublist (effNames_sublist_allNames (schemaSize s) s (le_refl _))
        hnames)
      (by simp [akeys])
    refine ⟨entries, hinst, ?_⟩
    rw [hdump]
    cases specExpected s kwargs <;> simp [Except.map]

/-- C10: `Nested.coerce` maps `None` to `None` without constructing a
sub-instance, and `Nested.dump` maps `None` back to `None`, so a nested
field may hold `None` end to end. -/
theorem claim_C10 (c : String) (s : List (String × Attr)) (d : Value) (ctx : Ctx) :
    coerceA (Attr.nestedA c s d) Value.vnull ctx = Except.ok Value.vnull
    ∧ dumpA (Attr.nestedA c s d) Value.vnull = Except.ok Value.vnull := by
  constructor
  · simp [coerceA]
  · simp [dumpA]

/-- C3: `Attributee.__setattr__` rejects any assignment to a declared
field name with the readonly `AttributeException` (the instance mapping is
left unchanged, as no assignment happens), while assignment to a
non-declared name succeeds and records the attribute. -/
theorem claim_C3 (schema : List (String × Attr)) (fields : List (String × Value))
    (key : String) (v : Value) :
    ((alookup key schema).isSome →
      attributeeSetattr schema fields key v =
        Except.error (Err.readonlyViolation key))
    ∧ (alookup key schema = none →
      attributeeSetattr schema fields key v = Except.ok (dinsert fields key v)) := by
  constructor
  · intro h
    simp [attributeeSetattr, h]
  · intro h
    simp [attributeeSetattr, h]

/-- Witness for C3 on the `Point` schema: rebinding the declared field
fails read-only, attaching a non-declared bookkeeping attribute succeeds. -/
theorem claim_C3_witness :
    attributeeSetattr pointSchema [(("x"), Value.vint 1)] ("x") (Value.vint 2) =
      Except.error (Err.readonlyViolation ("x"))
    ∧ attributeeSetattr pointSchema [(("x"), Value.vint 1)] ("note") (Value.vint 2) =
      Except.ok [(("x"), Value.vint 1), (("note"), Value.vint 2)] := by
  constructor
  · exact (claim_C3 pointSchema [(("x"), Value.vint 1)] ("x") (Value.vint 2)).1
      (by simp [pointSchema, alookup])
  · have h := (claim_C3 pointSchema [(("x"), Value.vint 1)] ("note") (Value.vint 2)).2
      (by simp [pointSchema, alookup])
    rw [h]
    simp [dinsert, alookup]

/-- C5 (the code contradicts it): a `List`, `Map` or `Object` descriptor
given a default crashes at definition time, because their `__init__`
methods run `super().__init__(**kwargs)` — which coerces the default
through `self.coerce` — before assigning `_separator`/`_contains`,
`_contains`/`_container` and `_resolver`; by contrast `Number`, which
assigns its fields before calling `super().__init__`, does coerce its
default exactly once at definition time. -/
theorem claim_C5_eval :
    listInit intAttr (",") (Value.vstr ("1,2")) =
      Except.error (Err.attributeUnset ("_separator"))
    ∧ listInit intAttr (",") (Value.vlist [Value.vint 1, Value.vint 2]) =
      Except.error (Err.attributeUnset ("_contains"))
    ∧ mapInit intAttr (Value.vmap []) =
      Except.error (Err.attributeUnset ("_container"))
    ∧ objectInit [] (Value.vmap [(("type"), Value.vstr ("X"))]) =
      Except.error (Err.attributeUnset ("_resolver"))
    ∧ numberInit NumConv.toIntC none none (Value.vint 7) =
      Except.ok (Attr.numberA NumConv.toIntC none none (Value.vint 7)) := by
  refine ⟨rfl, rfl, rfl, rfl, ?_⟩
  simp [numberInit, toNumber, isUndef, bind, Except.bind]

/-- C9: `Object.coerce` on a mapping without the reserved discriminator
key does not fail at the coercion boundary: it invokes the resolver, in
one call, with `None` as the discriminator and every entry of the mapping
as the remaining arguments — both for an abstract resolver and for the
engine's registry-backed descriptor. -/
theorem claim_C9 {ρ : Type}
    (resolver : Option Value → Ctx → List (String × Value) → ρ)
    (es : List (String × Value)) (ctx : Ctx)
    (h : alookup ("type") es = none) :
    objectCoerceWith resolver (Value.vmap es) ctx =
      Except.ok (resolver none ctx es)
    ∧ ∀ (reg : List (String × List (String × Attr))) (d : Value),
        coerceA (Attr.objectA reg d) (Value.vmap es) ctx =
          resolveRegistry reg none es := by
  constructor
  · simp [objectCoerceWith, h, filter_of_alookup_none h]
  · intro reg d
    simp [coerceA, h, filter_of_alookup_none h]

/-- Witness for C9: a mapping with no discriminator entry reaches the
(logging) resolver with `None` and the whole mapping. -/
theorem claim_C9_witness :
    objectCoerceWith (fun cn c args => (cn, c, args))
      (Value.vmap [(("radius"), Value.vstr ("5"))]) [] =
      Except.ok (none, [], [(("radius"), Value.vstr ("5"))]) := by
  exact (claim_C9 (fun cn c args => (cn, c, args))
    [(("radius"), Value.vstr ("5"))] [] (by simp [alookup])).1

/-- C8: a `Nested` field is `required` only if its base schema type has at
least one required field that stored no default, and a `Nested` field over
a base whose fields all stored defaults is never `required`. -/
theorem claim_C8 (c : String) (s : List (String × Attr)) (d : Value) :
    (requiredA (Attr.nestedA c s d) = true →
      ∃ p ∈ s, requiredA p.2 = true ∧ isUndef (storedDefault p.2) = true)
    ∧ ((∀ p ∈ s, isUndef (storedDefault p.2) = false) →
      requiredA (Attr.nestedA c s d) = false) := by
  constructor
  · intro h
    simp [requiredA, Bool.and_eq_true] at h
    obtain ⟨p, hp, hr⟩ := anyRequired_iff.1 h.2
    exact ⟨p, hp, hr, requiredA_storedDefault hr⟩
  · intro h
    by_cases ha : anyRequired s = true
    · obtain ⟨p, hp, hr⟩ := anyRequired_iff.1 ha
      have := requiredA_storedDefault hr
      rw [h p hp] at this
      cases this
    · simp [requiredA, Bool.and_eq_true]
      intro _
      simpa using ha

/-- Witness for C8: a `Nested` field over the all-defaulted schema
`{y: Integer(default=0)}` is not required. -/
theorem claim_C8_witness :
    requiredA (Attr.nestedA ("Opt") [(("y"), intZeroAttr)] Value.vundef) = false := by
  exact (claim_C8 ("Opt") [(("y"), intZeroAttr)] Value.vundef).2
    (by intro p hp; simp at hp; simp [hp, intZeroAttr, storedDefault, isUndef])

/-- C2 is refuted here: on an input that both omits the required field
`x` and supplies the undeclared key `z`, construction raises only the
`Missing arguments` report naming `x` — the unsupported key `z` is not
part of the failure, because the missing-fields error is raised before
the unclaimed-keys check can report. -/
theorem claim_C2_cex :
    constructA ("Point") pointSchema [(("z"), Value.vint 1)] =
      Except.error (Err.missingArguments [("x")])
    ∧ ¬ (("z") ∈ [("x")]) := by
  constructor
  · simp [constructA, constructLoop, pointSchema, intAttr, intZeroAttr,
      coerceA, toNumber, akeys, alookup, dinsert, ldiff, requiredA,
      defaultOf, isUndef, parentCtx, bind, Except.bind]
  · simp

/-- C2 as amended: for an include-free schema whose needed coercions
succeed, if any required field is absent, construction fails with one
`Missing arguments` report naming all of them (regardless of any
unsupported keys, which go unreported in that case); only when no field
is missing does an unclaimed key fail construction, with one
`Unsupported arguments` report naming all unclaimed keys; with neither
problem, construction succeeds. -/
theorem claim_C2 (c : String) (s : List (String × Attr))
    (kwargs : List (String × Value))
    (hfree : ∀ p ∈ s, isInclude p.2 = false)
    (hnod : (akeys s).Nodup)
    (hsup : ∀ p ∈ s, ∀ raw, alookup p.1 kwargs = some raw →
      ∃ v, coerceA p.2 raw parentCtx = Except.ok v)
    (hdef : ∀ p ∈ s, alookup p.1 kwargs = none → requiredA p.2 = false →
      ∃ v, coerceA p.2 (defaultOf p.2) parentCtx = Except.ok v) :
    (missingNames s kwargs ≠ [] →
      constructA c s kwargs =
        Except.error (Err.missingArguments (missingNames s kwargs)))
    ∧ (missingNames s kwargs = [] → extraNames s kwargs ≠ [] →
      constructA c s kwargs =
        Except.error (Err.unsupportedArguments (extraNames s kwargs)))
    ∧ (missingNames s kwargs = [] → extraNames s kwargs = [] →
      ∃ fields, constructA c s kwargs = Except.ok (Value.vinst c s fields)) := by
  obtain ⟨fields2, hloop⟩ :=
    constructLoop_total s kwargs [] (akeys kwargs) (akeys s) hfree hsup hdef
  have hmiss := ldiff_keys_removed s kwargs hfree hnod
  have hextra := ldiff_kwargs_removed s kwargs hfree
  refine ⟨?_, ?_, ?_⟩
  · intro hne
    simp [constructA, hloop, bind, Except.bind, hmiss, hextra,
      List.isEmpty_iff, hne]
  · intro hm hne
    simp [constructA, hloop, bind, Except.bind, hmiss, hextra,
      List.isEmpty_iff, hm, hne]
  · intro hm he
    exact ⟨fields2, by
      simp [constructA, hloop, bind, Except.bind, hmiss, hextra,
        List.isEmpty_iff, hm, he]⟩

/-- Witness for C2 (amended) on the `Point` schema with raw input
`{z: 1}`: both problems are present, and the single failure is the
`Missing arguments` report naming exactly the missing field. -/
theorem claim_C2_witness :
    constructA ("Pt") pointSchema [(("z"), Value.vint 1)] =
      Except.error (Err.missingArguments [("x")]) := by
  have h := (claim_C2 ("Pt") pointSchema [(("z"), Value.vint 1)]
    (by intro p hp
        simp [pointSchema] at hp
        rcases hp with rfl | rfl <;> simp [intAttr, intZeroAttr, isInclude])
    (by simp [pointSchema, akeys])
    (by intro p hp raw hraw
        simp [pointSchema] at hp
        rcases hp with rfl | rfl <;> simp [alookup] at hraw)
    (by intro p hp h1 h2
        simp [pointSchema] at hp
        rcases hp with rfl | rfl
        · simp [intAttr, requiredA, isUndef] at h2
        · exact ⟨Value.vint 0, by
            simp [intZeroAttr, coerceA, defaultOf, toNumber, bind, Except.bind]⟩)).1
  have hm : missingNames pointSchema [(("z"), Value.vint 1)] = [("x")] := by
    simp [missingNames, pointSchema, intAttr, intZeroAttr, requiredA, isUndef,
      alookup, List.filter_cons]
  rw [hm] at h
  exact h (by simp)

/-- C4: for every parent chain (arbitrarily deep) and every newly
declared field list, the merged `_declared_attributes` of the derived
class is exactly the spec's merge: every ancestor field in
ancestor-to-descendant order, a re-declared name keeping the ancestor's
position but carrying the descendant's descriptor, followed by the
genuinely new fields in declaration order. -/
theorem claim_C4 (p : AClass) (own : List (String × Attr))
    (hnod : (akeys own).Nodup) :
    declaredAttributes (.derive p own) =
      expectedMerge (declaredAttributes p) own := by
  rw [declared_derive_eq p own (mroConcat_dict p)]
  exact dupdate_expectedMerge own (declaredAttributes p) (declared_nodup p) hnod

/-- Witness for C4 on a three-level chain: the grandchild redeclares `a`
(keeping its position, taking the new descriptor) and adds `c` behind the
inherited `a, b`. -/
theorem claim_C4_witness :
    declaredAttributes
      (AClass.derive
        (AClass.derive AClass.root
          [(("a"), Attr.plainA (Value.vint 1)), (("b"), Attr.plainA (Value.vint 2))])
        [(("a"), Attr.plainA (Value.vint 3)), (("c"), Attr.plainA (Value.vint 4))]) =
      expectedMerge
        (declaredAttributes
          (AClass.derive AClass.root
            [(("a"), Attr.plainA (Value.vint 1)), (("b"), Attr.plainA (Value.vint 2))]))
        [(("a"), Attr.plainA (Value.vint 3)), (("c"), Attr.plainA (Value.vint 4))] := by
  exact claim_C4 _ _ (by simp [akeys])

/-- C6: on `{"type": "Circle", "radius": "5"}`, `Object.coerce` invokes
the resolver exactly once with the discriminator value, the context and
the remaining entries (the reserved entry excluded) — shown first with an
instrumented resolver whose result is its invocation log, then by the
engine's registry-backed descriptor factoring through a single resolver
call; the resulting instance holds `radius == 5.0`, and `Object.dump`
re-adds the discriminator entry, computed from the instance's registered
type name, alongside the dumped fields. -/
theorem claim_C6 :
    (∀ ctx : Ctx,
      objectCoerceWith (fun cn c args => [(cn, c, args)]) (Value.vmap circleRaw) ctx =
        Except.ok [(some (Value.vstr ("Circle")), ctx,
          [(("radius"), Value.vstr ("5"))])])
    ∧ (∀ (ctx : Ctx) (d : Value),
      coerceA (Attr.objectA shapeRegistry d) (Value.vmap circleRaw) ctx =
        resolveRegistry shapeRegistry (some (Value.vstr ("Circle")))
          [(("radius"), Value.vstr ("5"))])
    ∧ coerceA (Attr.objectA shapeRegistry Value.vundef) (Value.vmap circleRaw)
        parentCtx =
      Except.ok (Value.vinst ("Circle") circleSchema
        [(("radius"), Value.vfloat 5)])
    ∧ dumpA (Attr.objectA shapeRegistry Value.vundef)
        (Value.vinst ("Circle") circleSchema [(("radius"), Value.vfloat 5)]) =
      Except.ok (Value.vmap
        [(("radius"), Value.vfloat 5), (("type"), Value.vstr ("Circle"))]) := by
  refine ⟨?_, ?_, ?_, ?_⟩
  · intro ctx
    simp [objectCoerceWith, circleRaw, alookup]
  · intro ctx d
    simp [coerceA, circleRaw, alookup]
  · simp [coerceA, circleRaw, alookup, resolveRegistry, shapeRegistry,
      constructA, constructLoop, circleSchema, akeys, toNumber, parseIntStr,
      parseDigits, requiredA, isUndef, dinsert, ldiff, parentCtx,
      bind, Except.bind]
  · simp [dumpA, dumpLoop, dumpField, circleSchema, alookup, dinsert,
      akeys, bind, Except.bind]

/-- C7: `List.coerce` with an `Integer` element descriptor turns
`"1,2,3"` into the sequence `[1,2,3]`; each element is coerced with the
context augmented by its zero-based position under the reserved context
key; a mapping contributes its values with the keys discarded; and any
input that is neither a string, a sequence nor a mapping fails with the
list `AttributeException`. -/
theorem claim_C7 :
    coerceA listIntAttr (Value.vstr ("1,2,3")) [] =
      Except.ok (Value.vlist [Value.vint 1, Value.vint 2, Value.vint 3])
    ∧ (∀ (elem : Attr) (ctx : Ctx) (i : Nat) (x : Value) (xs : List Value),
        alookup ("key") ctx = none →
        coerceItems elem ctx i (x :: xs) =
          (coerceA elem x ((("key"), CtxEntry.idx i) :: ctx)).bind
            (fun y => (coerceItems elem ctx (i + 1) xs).bind
              (fun ys => Except.ok (y :: ys))))
    ∧ (∀ (elem : Attr) (sep : String) (d : Value) (ctx : Ctx)
        (es : List (String × Value)),
        coerceA (Attr.listA elem sep d) (Value.vmap es) ctx =
          coerceA (Attr.listA elem sep d) (Value.vlist (es.map (fun p => p.2))) ctx)
    ∧ (∀ (elem : Attr) (sep : String) (d : Value) (ctx : Ctx) (v : Value),
        isListShaped v = false →
        coerceA (Attr.listA elem sep d) v ctx = Except.error Err.coercionFailure) := by
  refine ⟨?_, ?_, ?_, ?_⟩
  · simp [listIntAttr, intAttr, coerceA, listItems, coerceItems, ctxExtend, alookup,
      toNumber, parseIntStr, parseDigits, splitStr, splitAux, dropSep,
      bind, Except.bind]
  · intro elem ctx i x xs h
    simp [coerceItems, ctxExtend, h, bind, Except.bind]
  · intro elem sep d ctx es
    simp [coerceA, listItems]
  · intro elem sep d ctx v h
    cases v <;> simp_all [isListShaped, coerceA, listItems, bind, Except.bind]

/-- Witness for C7: the hypothesized parts at concrete inputs — an element
coerced at position 0 with the empty ambient context, and an integer input
rejected as not list-shaped. -/
theorem claim_C7_witness :
    coerceItems intAttr [] 0 [Value.vstr ("7")] =
      (coerceA intAttr (Value.vstr ("7")) [(("key"), CtxEntry.idx 0)]).bind
        (fun y => (coerceItems intAttr [] 1 []).bind
          (fun ys => Except.ok (y :: ys)))
    ∧ coerceA listIntAttr (Value.vint 3) [] = Except.error Err.coercionFailure := by
  constructor
  · exact claim_C7.2.1 intAttr [] 0 (Value.vstr ("7")) [] (by simp [alookup])
  · exact claim_C7.2.2.2 intAttr (",") Value.vundef [] (Value.vint 3)
      (by simp [isListShaped])

/-- C1 (as amended; the literal claim is refuted by the counterexample,
since construction normalizes supplied scalar values): for every schema
type with duplicate-free flattened field names and every raw keyword
mapping whose supplied values are fixed points of their own field's
coerce-then-dump normalization, a successful construction dumps to
exactly the spec's round-trip image of the input — per declared field in
declaration order: the supplied value under the field's name, the
explicitly materialized (coerced then dumped) default for an absent
optional field, and an `Include` contributing its target's image of the
filtered sub-mapping merged flat, with discriminator entries added by
`Object.dump` inside the field dumps. -/
theorem claim_C1 (c : String) (s : List (String × Attr))
    (kwargs : List (String × Value)) (inst : Value)
    (hnames : (allNames s).Nodup)
    (hnorm : ∀ k v g, (k, v) ∈ kwargs → (k, g) ∈ effFields s →
      (coerceA g v parentCtx).bind (dumpA g) = Except.ok v)
    (hok : constructA c s kwargs = Except.ok inst) :
    ∃ fields, inst = Value.vinst c s fields ∧
      dumpLoop s fields [] = specExpected s kwargs :=
  roundTripAux (schemaSize s) s (le_refl _) c kwargs inst hnames hnorm hok

/-- C1 is refuted in its literal form: constructing the `Point` schema
from `{x: "5"}` coerces the supplied string to the integer `5`, so the
dump is `{x: 5, y: 0}` — not structurally equal to the input with the
default materialized (`{x: "5", y: 0}`): the supplied raw value is not
preserved. -/
theorem claim_C1_cex :
    constructA ("Point") pointSchema [(("x"), Value.vstr ("5"))] =
      Except.ok (Value.vinst ("Point") pointSchema
        [(("x"), Value.vint 5), (("y"), Value.vint 0)])
    ∧ dumpLoop pointSchema [(("x"), Value.vint 5), (("y"), Value.vint 0)] [] =
      Except.ok [(("x"), Value.vint 5), (("y"), Value.vint 0)]
    ∧ [(("x"), Value.vint 5), (("y"), Value.vint 0)] ≠
      [(("x"), Value.vstr ("5")), (("y"), Value.vint 0)] := by
  refine ⟨?_, ?_, ?_⟩
  · simp [constructA, constructLoop, pointSchema, intAttr, intZeroAttr,
      coerceA, toNumber, parseIntStr, parseDigits, akeys, alookup, dinsert,
      ldiff, requiredA, defaultOf, isUndef, parentCtx, bind, Except.bind]
  · simp [dumpLoop, dumpField, dumpA, pointSchema, intAttr, intZeroAttr,
      alookup, dinsert, akeys, defaultOf, bind, Except.bind]
  · simp

/-- Witness for C1 (amended) on the `Point` schema with the already
normalized input `{x: 5}`: construction succeeds and the dump is the
spec's image `{x: 5, y: 0}` of the input with the default materialized. -/
theorem claim_C1_witness :
    ∃ fields,
      Value.vinst ("Pt1") pointSchema
          [(("x"), Value.vint 5), (("y"), Value.vint 0)] =
        Value.vinst ("Pt1") pointSchema fields ∧
      dumpLoop pointSchema fields [] =
        specExpected pointSchema [(("x"), Value.vint 5)] :=
  claim_C1 ("Pt1") pointSchema [(("x"), Value.vint 5)]
    (Value.vinst ("Pt1") pointSchema
      [(("x"), Value.vint 5), (("y"), Value.vint 0)])
    (by simp [pointSchema, intAttr, intZeroAttr, allNames])
    (by intro k v g hkv hg
        simp at hkv
        obtain ⟨rfl, rfl⟩ := hkv
        simp [effFields, pointSchema, intAttr, intZeroAttr] at hg
        subst hg
        simp [coerceA, toNumber, dumpA, bind, Except.bind])
    (by simp [constructA, constructLoop, pointSchema, intAttr, intZeroAttr,
          coerceA, toNumber, akeys, alookup, dinsert, ldiff, requiredA,
          defaultOf, isUndef, parentCtx, bind, Except.bind])

end VotAttr
